import Mathlib

/-!
Verification of the dependency-graph analysis engine of a task-list
application.  The engine consists of five pure functions over a snapshot
of tasks: a cycle guard used before inserting a dependency edge
(hasCycle), a transitive reducer (computeTransitiveReduction), an
earliest-start propagator (calculateEarliestStartDates, modelled here
per task id by getEarliestStartDate), a longest-path layering
(computeUpwardLayers, modelled by layerOf together with levelsList and
layerBucket) and a critical-path selector (computeCriticalPath).

Ids are integers; calendar dates are modelled by their integer
timestamps, with a missing or unparseable due date modelled as none.
The two depth-first searches of the source are general recursion with a
shared mutable visited set; they are embedded with an explicit fuel
parameter and the visited set threaded through, and the fuel chosen in
the top-level definitions is proved sufficient.
-/

namespace TaskGraph

/-- A task of the snapshot.  dueDate and earliestStartDate are integer
timestamps, none standing for an absent or unparseable date. -/
structure Task where
  id : Int
  title : String
  durationDays : Int
  dueDate : Option Int
  imageUrl : Option String
  dependencies : List Int
  earliestStartDate : Option Int
  onCriticalPath : Option Bool
deriving DecidableEq, Repr

/-- tasks.find(t => t.id === i): the first task with the given id. -/
def findTask (tasks : List Task) (i : Int) : Option Task :=
  tasks.find? (fun t => t.id == i)

/-- Lookup in new Map(tasks.map(t => [t.id, t])): a JavaScript Map keeps
the last entry written for a key, hence the last task with the given id. -/
def mapGet (tasks : List Task) (i : Int) : Option Task :=
  tasks.reverse.find? (fun t => t.id == i)

/-- The set of ids of the tasks of the snapshot. -/
def idsFinset (tasks : List Task) : Finset Int :=
  (tasks.map Task.id).toFinset

/-- All ids appearing in the snapshot, as task ids or inside dependency
lists: a finite universe containing every node the searches can visit. -/
def nodeUniverse (tasks : List Task) : Finset Int :=
  idsFinset tasks ∪ (tasks.flatMap Task.dependencies).toFinset

/-- Adjacency of the graph walked by hasCycle: the dependency list of
the first task with the given id, empty when no task matches. -/
def adjFind (tasks : List Task) (a : Int) : List Int :=
  ((findTask tasks a).map Task.dependencies).getD []

/-- Adjacency of the graph walked through the taskMap of the reducer and
the earliest-start propagator: last task with the given id wins. -/
def adjMap (tasks : List Task) (a : Int) : List Int :=
  ((mapGet tasks a).map Task.dependencies).getD []

/-- Adjacency of the reducer's reachability search: the taskMap graph
with the single edge skipEdge removed. -/
def adjSkip (tasks : List Task) (skipEdge : Int × Int) (a : Int) : List Int :=
  (adjMap tasks a).filter (fun n => !(a == skipEdge.1 && n == skipEdge.2))

/-- Adjacency collecting the dependency lists of every task with the
given id; used only to state acyclicity of a snapshot. -/
def adjAll (tasks : List Task) (a : Int) : List Int :=
  tasks.flatMap (fun t => if t.id == a then t.dependencies else [])

/-- One round of the some-loop of hasCycle: runs f on each listed id in
turn, threading the visited set, stopping at the first true. -/
def hcList (f : Int → Finset Int → Bool × Finset Int) :
    List Int → Finset Int → Bool × Finset Int
  | [], vis => (false, vis)
  | d :: ds, vis =>
    match f d vis with
    | (true, vis1) => (true, vis1)
    | (false, vis1) => hcList f ds vis1

/-- Fuel-indexed embedding of hasCycle from src/lib/graphUtils.ts: if
startId equals the target return true; if startId is already visited
return false; otherwise mark startId visited and recurse through the
dependency list of the first task with that id (empty when absent). -/
def hcF (adj : Int → List Int) (tgt : Int) :
    Nat → Int → Finset Int → Bool × Finset Int
  | 0, _, vis => (false, vis)
  | fuel + 1, s, vis =>
    if s = tgt then (true, vis)
    else if s ∈ vis then (false, vis)
    else hcList (hcF adj tgt fuel) (adj s) (insert s vis)

/-- hasCycle(tasks, startId, targetId) with the default empty visited
set; the fuel is one more than the number of distinct task ids, which is
proved sufficient. -/
def hasCycle (tasks : List Task) (startId targetId : Int) : Bool :=
  (hcF (adjFind tasks) targetId ((idsFinset tasks).card + 1) startId ∅).1

/-- The neighbor loop of the dfs inside isReachable: a visited neighbor
is skipped, an unvisited one is searched, threading the visited set. -/
def dfsList (f : Int → Finset Int → Bool × Finset Int) :
    List Int → Finset Int → Bool × Finset Int
  | [], vis => (false, vis)
  | n :: ns, vis =>
    if n ∈ vis then dfsList f ns vis
    else
      match f n vis with
      | (true, vis1) => (true, vis1)
      | (false, vis1) => dfsList f ns vis1

/-- Fuel-indexed embedding of the dfs closure inside isReachable: return
true on the target, otherwise mark the current node visited and walk its
neighbors, skipping visited ones. -/
def dfsF (adj : Int → List Int) (tgt : Int) :
    Nat → Int → Finset Int → Bool × Finset Int
  | 0, _, vis => (false, vis)
  | fuel + 1, c, vis =>
    if c = tgt then (true, vis)
    else dfsList (dfsF adj tgt fuel) (adj c) (insert c vis)

/-- isReachable(sourceId, targetId, skipEdge) of the transitive reducer:
a reachability search in the taskMap graph that ignores the one edge
skipEdge, with a fresh visited set.  The fuel is proved sufficient. -/
def isReachable (tasks : List Task) (sourceId targetId : Int)
    (skipEdge : Int × Int) : Bool :=
  if sourceId == targetId then true
  else
    (dfsF (adjSkip tasks skipEdge) targetId
      ((insert sourceId (nodeUniverse tasks)).card + 1) sourceId ∅).1

/-- The per-task body of computeTransitiveReduction: keep a dependency
depId unless some other direct dependency of the task reaches depId
while the edge (task.id, depId) itself is skipped. -/
def reduceTask (tasks : List Task) (task : Task) : Task :=
  { task with dependencies := task.dependencies.filter (fun depId =>
      !((task.dependencies.filter (fun d => d != depId)).any
        (fun otherDepId => isReachable tasks otherDepId depId (task.id, depId)))) }

/-- computeTransitiveReduction: every task is rewritten with its
non-redundant dependencies, all decisions taken against the original
snapshot. -/
def computeTransitiveReduction (tasks : List Task) : List Task :=
  tasks.map (reduceTask tasks)

/-- parseDate: an absent or unparseable date string yields the fallback. -/
def parseDate (dateStr : Option Int) (fallback : Int) : Int :=
  dateStr.getD fallback

/-- getEarliestStartDate of calculateEarliestStartDates for one task id:
an unknown id yields projectStartDate; a task without dependencies its
own parsed due date; otherwise the running maximum, initialized to
projectStartDate, of the parsed due dates of its direct dependencies. -/
def getEarliestStartDate (tasks : List Task) (projectStartDate : Int)
    (taskId : Int) : Int :=
  match mapGet tasks taskId with
  | none => projectStartDate
  | some task =>
    if task.dependencies.isEmpty then parseDate task.dueDate projectStartDate
    else
      task.dependencies.foldl (fun maxParentDue parentId =>
        let parentDue :=
          parseDate ((mapGet tasks parentId).bind Task.dueDate) projectStartDate
        if maxParentDue < parentDue then parentDue else maxParentDue)
        projectStartDate

/-- The child map of computeUpwardLayers: the ids of the tasks whose
dependency list contains the given id, in snapshot order. -/
def childrenOf (tasks : List Task) (pid : Int) : List Int :=
  (tasks.filter (fun t => t.dependencies.contains pid)).map Task.id

/-- Fuel-indexed getHeight of computeUpwardLayers: 0 without dependents,
otherwise one more than the maximal height of the dependents. -/
def heightF (tasks : List Task) : Nat → Int → Nat
  | 0, _ => 0
  | fuel + 1, pid =>
    let children := childrenOf tasks pid
    if children.isEmpty then 0
    else 1 + (children.map (heightF tasks fuel)).foldl max 0

/-- The layer computeUpwardLayers assigns to an id; the fuel is one more
than the number of distinct task ids, proved sufficient on acyclic
snapshots. -/
def layerOf (tasks : List Task) (pid : Int) : Nat :=
  heightF tasks ((idsFinset tasks).card + 1) pid

/-- The ascending list of layers attained by some task: the sorted key
set of the layer-bucket map of computeUpwardLayers. -/
def levelsList (tasks : List Task) : List Nat :=
  (List.range ((idsFinset tasks).card + 2)).filter
    (fun L => tasks.any (fun t => layerOf tasks t.id == L))

/-- The bucket of one layer: the tasks of that layer in snapshot order. -/
def layerBucket (tasks : List Task) (L : Nat) : List Task :=
  tasks.filter (fun t => layerOf tasks t.id == L)

/-- The selection scan of computeCriticalPath at one layer: running
maximum initialized to the epoch date 0 with a null candidate; a task
without earliestStartDate, or whose date does not strictly exceed the
running maximum, never becomes the candidate. -/
def pickMax (tasksAtLevel : List Task) : Option Int :=
  (tasksAtLevel.foldl (fun acc task =>
      match task.earliestStartDate with
      | none => acc
      | some es => if acc.1 < es then (es, some task.id) else acc)
    ((0 : Int), (none : Option Int))).2

/-- One layer of the walk of computeCriticalPath: at layer 0 scan the
whole bucket; later restrict to tasks that are a direct dependency of
the previous selection and fall back to the whole bucket when no task
qualifies.  The state is the accumulated set and the previous selection. -/
def cpStep (tasks : List Task) (acc : Finset Int × List Int) (level : Nat) :
    Finset Int × List Int :=
  let tasksAtLevel := layerBucket tasks level
  if level == 0 then
    match pickMax tasksAtLevel with
    | some cid => (insert cid acc.1, [cid])
    | none => (acc.1, [])
  else
    let candidates := tasksAtLevel.filter (fun task =>
      acc.2.any (fun critId =>
        match findTask tasks critId with
        | some t => t.dependencies.contains task.id
        | none => false))
    if candidates.isEmpty then
      match pickMax tasksAtLevel with
      | some cid => (insert cid acc.1, [cid])
      | none => (acc.1, [])
    else
      match pickMax candidates with
      | some cid => (insert cid acc.1, [cid])
      | none => (acc.1, [])

/-- computeCriticalPath: fold the per-layer selection over the layers in
ascending order, returning the set of selected ids. -/
def computeCriticalPath (tasks : List Task) : Finset Int :=
  ((levelsList tasks).foldl (cpStep tasks) (∅, [])).1

/-- One edge of the graph described by an adjacency function. -/
def AStep (adj : Int → List Int) (a b : Int) : Prop :=
  b ∈ adj a

/-- Reachability in the graph described by an adjacency function. -/
def AReach (adj : Int → List Int) : Int → Int → Prop :=
  Relation.ReflTransGen (AStep adj)

/-- Everything a search added to the visited set has been explored: it
is not the target and all its neighbors are in the final visited set. -/
def IncOk (adj : Int → List Int) (tgt : Int) (vis vis2 : Finset Int) : Prop :=
  vis ⊆ vis2 ∧ ∀ x ∈ vis2, x ∉ vis → x ≠ tgt ∧ ∀ y ∈ adj x, y ∈ vis2

/-- The dependency edges of the snapshot, from any task carrying the id. -/
def depStep (tasks : List Task) (a b : Int) : Prop :=
  ∃ t ∈ tasks, t.id = a ∧ b ∈ t.dependencies

/-- The snapshot is acyclic: no id lies on a nonempty dependency cycle. -/
def Acyclic (tasks : List Task) : Prop :=
  ∀ x, ¬ Relation.TransGen (depStep tasks) x x

/-- Executable acyclicity check: no task has a dependency from which the
task itself is reachable. -/
def acyclicBool (tasks : List Task) : Bool :=
  tasks.all (fun t => t.dependencies.all (fun d =>
    !(hcF (adjAll tasks) t.id ((idsFinset tasks).card + 1) d ∅).1))

/-- Reachability along dependency edges, resolving every id through the
taskMap of the snapshot (the graph the reducer works on). -/
def reachableDeps (tasks : List Task) (a b : Int) : Prop :=
  AReach (adjMap tasks) a b

/-- The value claim C3 ascribes to a task with dependencies, in the
claim's own words: the maximum of the direct dependencies' due dates,
substituting projectStartDate for a dependency without a parseable one;
written for comparison against the code's getEarliestStartDate. -/
def depDueMaxClaim (tasks : List Task) (projectStartDate : Int)
    (deps : List Int) : Int :=
  match deps.map (fun d =>
      parseDate ((mapGet tasks d).bind Task.dueDate) projectStartDate) with
  | [] => projectStartDate
  | v :: vs => vs.foldl max v

/-- The strict dependency-descendants of a node, the termination measure
of the layering recursion. -/
def descSet (tasks : List Task) (x : Int) : Set Int :=
  {y | y ∈ tasks.map Task.id ∧ Relation.TransGen (depStep tasks) y x}

/-- The interval of an edge: every node lying on some path from a to b;
the induction measure for replacing removed edges by witness paths. -/
def interSet (tasks : List Task) (a b : Int) : Set Int :=
  {x | AReach (adjMap tasks) a x ∧ AReach (adjMap tasks) x b}

/-- Does the id resolve to a task of the snapshot? -/
def resolves (tasks : List Task) (d : Int) : Bool :=
  tasks.any (fun t => t.id == d)

/-- The snapshot with every dangling id removed from dependency lists. -/
def cleanTasks (tasks : List Task) : List Task :=
  tasks.map (fun t =>
    { t with dependencies := t.dependencies.filter (resolves tasks) })

/-- Modelled from the spec for comparison with computeCriticalPath: the
pick of one layer as claim C4 words it, the first task attaining the
maximal earliestStartDate of a non-empty pool (first maximum wins). -/
def specPick (pool : List Task) : Option Task :=
  match pool with
  | [] => none
  | t :: ts => some (ts.foldl (fun best task =>
      if best.earliestStartDate.getD 0 < task.earliestStartDate.getD 0 then task
      else best) t)

/-- Modelled from the spec for comparison: one layer of the walk as
claim C4 words it: at layer 0 pick over the whole bucket; later restrict
to direct dependencies of the previous selection, falling back to the
whole bucket when no task qualifies. -/
def specCPStep (tasks : List Task) (acc : Finset Int × Option Task) (level : Nat) :
    Finset Int × Option Task :=
  let bucket := layerBucket tasks level
  let candidates :=
    match acc.2 with
    | some prev => bucket.filter (fun task => prev.dependencies.contains task.id)
    | none => []
  let pool := if level == 0 then bucket
    else if candidates.isEmpty then bucket else candidates
  match specPick pool with
  | some sel => (insert sel.id acc.1, some sel)
  | none => (acc.1, acc.2)

/-- Modelled from the spec for comparison: the critical-path set built
by the claimed selection rule, one task per layer in ascending order. -/
def criticalPathSpec (tasks : List Task) : Finset Int :=
  ((levelsList tasks).foldl (specCPStep tasks) (∅, none)).1

/-! ### Reachability semantics of the two depth-first searches -/

theorem IncOk.refl (adj : Int → List Int) (tgt : Int) (vis : Finset Int) :
    IncOk adj tgt vis vis :=
  ⟨Finset.Subset.refl vis, fun _ hx hx2 => absurd hx hx2⟩

theorem IncOk.trans {adj : Int → List Int} {tgt : Int} {vis vis1 vis2 : Finset Int}
    (h1 : IncOk adj tgt vis vis1) (h2 : IncOk adj tgt vis1 vis2) :
    IncOk adj tgt vis vis2 := by
  refine ⟨h1.1.trans h2.1, fun x hx hxv => ?_⟩
  by_cases hx1 : x ∈ vis1
  · obtain ⟨hne, hcl⟩ := h1.2 x hx1 hxv
    exact ⟨hne, fun y hy => h2.1 (hcl y hy)⟩
  · exact h2.2 x hx hx1

/-- A set closed under the adjacency and avoiding the target witnesses
non-reachability. -/
theorem closed_no_reach {adj : Int → List Int} {tgt : Int} {V : Finset Int}
    (hcl : ∀ x ∈ V, x ≠ tgt ∧ ∀ y ∈ adj x, y ∈ V) :
    ∀ s ∈ V, ¬ AReach adj s tgt := by
  intro s hs hreach
  revert hs
  induction hreach using Relation.ReflTransGen.head_induction_on with
  | refl => exact fun hs => (hcl tgt hs).1 rfl
  | head hstep _ ih =>
    rename_i a c _
    exact fun hs => ih ((hcl a hs).2 c hstep)

theorem hcList_mono {f : Int → Finset Int → Bool × Finset Int}
    (hf : ∀ d vis, vis ⊆ (f d vis).2) :
    ∀ ds vis, vis ⊆ (hcList f ds vis).2 := by
  intro ds
  induction ds with
  | nil => intro vis; simp [hcList]
  | cons d ds ih =>
    intro vis
    rw [hcList]
    rcases h : f d vis with ⟨b, vis1⟩
    have hsub : vis ⊆ vis1 := by have := hf d vis; rwa [h] at this
    cases b with
    | true => exact hsub
    | false => exact hsub.trans (ih vis1)

theorem hcF_mono (adj : Int → List Int) (tgt : Int) :
    ∀ fuel s vis, vis ⊆ (hcF adj tgt fuel s vis).2 := by
  intro fuel
  induction fuel with
  | zero => intro s vis; simp [hcF]
  | succ fuel ih =>
    intro s vis
    rw [hcF]
    by_cases h1 : s = tgt
    · simp [h1]
    · by_cases h2 : s ∈ vis
      · simp [h1, h2]
      · simp only [h1, h2, if_false, if_neg]
        exact (Finset.subset_insert s vis).trans (hcList_mono ih (adj s) (insert s vis))

theorem hcList_sound {adj : Int → List Int} {tgt : Int}
    {f : Int → Finset Int → Bool × Finset Int}
    (hf : ∀ d vis, (f d vis).1 = true → AReach adj d tgt) :
    ∀ ds vis, (hcList f ds vis).1 = true → ∃ d ∈ ds, AReach adj d tgt := by
  intro ds
  induction ds with
  | nil => intro vis h; simp [hcList] at h
  | cons d ds ih =>
    intro vis h
    rw [hcList] at h
    rcases hfd : f d vis with ⟨b, vis1⟩
    rw [hfd] at h
    cases b with
    | true =>
      refine ⟨d, List.mem_cons_self d ds, hf d vis ?_⟩
      rw [hfd]
    | false =>
      obtain ⟨d2, hd2, hr⟩ := ih vis1 h
      exact ⟨d2, List.mem_cons_of_mem d hd2, hr⟩

theorem hcF_sound (adj : Int → List Int) (tgt : Int) :
    ∀ fuel s vis, (hcF adj tgt fuel s vis).1 = true → AReach adj s tgt := by
  intro fuel
  induction fuel with
  | zero => intro s vis h; simp [hcF] at h
  | succ fuel ih =>
    intro s vis h
    rw [hcF] at h
    by_cases h1 : s = tgt
    · exact h1 ▸ Relation.ReflTransGen.refl
    · by_cases h2 : s ∈ vis
      · simp [h1, h2] at h
      · simp only [h1, h2, if_false, if_neg] at h
        obtain ⟨d, hd, hr⟩ := hcList_sound ih (adj s) (insert s vis) h
        exact Relation.ReflTransGen.head hd hr

theorem card_sdiff_mono {U vis vis1 : Finset Int} (h : vis ⊆ vis1) :
    (U \ vis1).card ≤ (U \ vis).card :=
  Finset.card_le_card (Finset.sdiff_subset_sdiff (Finset.Subset.refl U) h)

theorem card_sdiff_insert {U vis : Finset Int} {s : Int}
    (hU : s ∈ U) (hv : s ∉ vis) :
    (U \ insert s vis).card + 1 = (U \ vis).card := by
  rw [Finset.sdiff_insert]
  rw [Finset.card_erase_of_mem (Finset.mem_sdiff.mpr ⟨hU, hv⟩)]
  have hpos : 0 < (U \ vis).card :=
    Finset.card_pos.mpr ⟨s, Finset.mem_sdiff.mpr ⟨hU, hv⟩⟩
  omega

theorem hcList_false {adj : Int → List Int} {tgt : Int} {U : Finset Int} {n : Nat}
    {f : Int → Finset Int → Bool × Finset Int}
    (hfmono : ∀ d vis, vis ⊆ (f d vis).2)
    (hf : ∀ d vis, (U \ vis).card + 1 ≤ n → (f d vis).1 = false →
      d ∈ (f d vis).2 ∧ IncOk adj tgt vis (f d vis).2) :
    ∀ ds vis, (U \ vis).card + 1 ≤ n → (hcList f ds vis).1 = false →
      (∀ d ∈ ds, d ∈ (hcList f ds vis).2) ∧
        IncOk adj tgt vis (hcList f ds vis).2 := by
  intro ds
  induction ds with
  | nil =>
    intro vis hcard hfalse
    simp only [hcList]
    exact ⟨by simp, IncOk.refl adj tgt vis⟩
  | cons d ds ih =>
    intro vis hcard hfalse
    rw [hcList] at hfalse ⊢
    rcases hfd : f d vis with ⟨b, vis1⟩
    rw [hfd] at hfalse
    cases b with
    | true => simp at hfalse
    | false =>
      have hd := hf d vis hcard (by rw [hfd])
      rw [hfd] at hd
      have hsub1 : vis ⊆ vis1 := by have := hfmono d vis; rwa [hfd] at this
      have hcard1 : (U \ vis1).card + 1 ≤ n :=
        le_trans (by have := card_sdiff_mono (U := U) hsub1; omega) hcard
      obtain ⟨hall, hinc⟩ := ih vis1 hcard1 hfalse
      have hsub2 : vis1 ⊆ (hcList f ds vis1).2 := hcList_mono hfmono ds vis1
      refine ⟨?_, hd.2.trans hinc⟩
      intro d2 hd2
      rcases List.mem_cons.mp hd2 with h | h
      · exact h ▸ hsub2 hd.1
      · exact hall d2 h

theorem hcF_false (adj : Int → List Int) (tgt : Int) (U : Finset Int)
    (hU : ∀ a, adj a ≠ [] → a ∈ U) :
    ∀ fuel s vis, (U \ vis).card + 1 ≤ fuel →
      (hcF adj tgt fuel s vis).1 = false →
      s ∈ (hcF adj tgt fuel s vis).2 ∧
        IncOk adj tgt vis (hcF adj tgt fuel s vis).2 := by
  intro fuel
  induction fuel with
  | zero => intro s vis hcard; omega
  | succ fuel ih =>
    intro s vis hcard hfalse
    rw [hcF] at hfalse ⊢
    by_cases h1 : s = tgt
    · rw [if_pos h1] at hfalse
      simp at hfalse
    · by_cases h2 : s ∈ vis
      · rw [if_neg h1, if_pos h2]
        exact ⟨h2, IncOk.refl adj tgt vis⟩
      · rw [if_neg h1, if_neg h2] at hfalse ⊢
        by_cases hadj : adj s = []
        · rw [hadj] at hfalse ⊢
          simp only [hcList]
          refine ⟨Finset.mem_insert_self s vis, Finset.subset_insert s vis, ?_⟩
          intro x hx hxv
          rcases Finset.mem_insert.mp hx with h | h
          · subst h
            exact ⟨h1, by rw [hadj]; intro y hy; simp at hy⟩
          · exact absurd h hxv
        · have hsU : s ∈ U := hU s hadj
          have hcard1 : (U \ insert s vis).card + 1 ≤ fuel := by
            have := card_sdiff_insert hsU h2
            omega
          obtain ⟨hall, hinc⟩ :=
            hcList_false (hcF_mono adj tgt fuel) ih (adj s) (insert s vis) hcard1 hfalse
          have hsub : insert s vis ⊆ (hcList (hcF adj tgt fuel) (adj s) (insert s vis)).2 :=
            hcList_mono (hcF_mono adj tgt fuel) (adj s) (insert s vis)
          refine ⟨hsub (Finset.mem_insert_self s vis),
            (Finset.subset_insert s vis).trans hsub, ?_⟩
          intro x hx hxv
          by_cases hxs : x = s
          · subst hxs
            exact ⟨h1, hall⟩
          · exact hinc.2 x hx (fun hmem =>
              hxv (by rcases Finset.mem_insert.mp hmem with h | h
                      · exact absurd h hxs
                      · exact h))

/-- With enough fuel, the hasCycle search decides reachability. -/
theorem hcF_iff_reach (adj : Int → List Int) (tgt : Int) (U : Finset Int)
    (hU : ∀ a, adj a ≠ [] → a ∈ U) (fuel : Nat) (hfuel : U.card + 1 ≤ fuel)
    (s : Int) :
    (hcF adj tgt fuel s ∅).1 = true ↔ AReach adj s tgt := by
  constructor
  · exact hcF_sound adj tgt fuel s ∅
  · intro hreach
    by_contra hne
    have hfalse : (hcF adj tgt fuel s ∅).1 = false := by
      cases h : (hcF adj tgt fuel s ∅).1
      · rfl
      · exact absurd h hne
    have hcard : (U \ (∅ : Finset Int)).card + 1 ≤ fuel := by
      rw [Finset.sdiff_empty]; exact hfuel
    obtain ⟨hs, _, hcl⟩ := hcF_false adj tgt U hU fuel s ∅ hcard hfalse
    exact closed_no_reach
      (fun x hx => hcl x hx (Finset.not_mem_empty x)) s hs hreach

theorem dfsList_mono {f : Int → Finset Int → Bool × Finset Int}
    (hf : ∀ d vis, vis ⊆ (f d vis).2) :
    ∀ ds vis, vis ⊆ (dfsList f ds vis).2 := by
  intro ds
  induction ds with
  | nil => intro vis; simp [dfsList]
  | cons d ds ih =>
    intro vis
    rw [dfsList]
    by_cases hv : d ∈ vis
    · rw [if_pos hv]
      exact ih vis
    · rw [if_neg hv]
      rcases h : f d vis with ⟨b, vis1⟩
      have hsub : vis ⊆ vis1 := by have := hf d vis; rwa [h] at this
      cases b with
      | true => exact hsub
      | false => exact hsub.trans (ih vis1)

theorem dfsF_mono (adj : Int → List Int) (tgt : Int) :
    ∀ fuel s vis, vis ⊆ (dfsF adj tgt fuel s vis).2 := by
  intro fuel
  induction fuel with
  | zero => intro s vis; simp [dfsF]
  | succ fuel ih =>
    intro s vis
    rw [dfsF]
    by_cases h1 : s = tgt
    · simp [h1]
    · rw [if_neg h1]
      exact (Finset.subset_insert s vis).trans (dfsList_mono ih (adj s) (insert s vis))

theorem dfsList_sound {adj : Int → List Int} {tgt : Int}
    {f : Int → Finset Int → Bool × Finset Int}
    (hf : ∀ d vis, (f d vis).1 = true → AReach adj d tgt) :
    ∀ ds vis, (dfsList f ds vis).1 = true → ∃ d ∈ ds, AReach adj d tgt := by
  intro ds
  induction ds with
  | nil => intro vis h; simp [dfsList] at h
  | cons d ds ih =>
    intro vis h
    rw [dfsList] at h
    by_cases hv : d ∈ vis
    · rw [if_pos hv] at h
      obtain ⟨d2, hd2, hr⟩ := ih vis h
      exact ⟨d2, List.mem_cons_of_mem d hd2, hr⟩
    · rw [if_neg hv] at h
      rcases hfd : f d vis with ⟨b, vis1⟩
      rw [hfd] at h
      cases b with
      | true =>
        refine ⟨d, List.mem_cons_self d ds, hf d vis ?_⟩
        rw [hfd]
      | false =>
        obtain ⟨d2, hd2, hr⟩ := ih vis1 h
        exact ⟨d2, List.mem_cons_of_mem d hd2, hr⟩

theorem dfsF_sound (adj : Int → List Int) (tgt : Int) :
    ∀ fuel s vis, (dfsF adj tgt fuel s vis).1 = true → AReach adj s tgt := by
  intro fuel
  induction fuel with
  | zero => intro s vis h; simp [dfsF] at h
  | succ fuel ih =>
    intro s vis h
    rw [dfsF] at h
    by_cases h1 : s = tgt
    · exact h1 ▸ Relation.ReflTransGen.refl
    · rw [if_neg h1] at h
      obtain ⟨d, hd, hr⟩ := dfsList_sound ih (adj s) (insert s vis) h
      exact Relation.ReflTransGen.head hd hr

theorem dfsList_false {adj : Int → List Int} {tgt : Int} {U : Finset Int} {n : Nat}
    {f : Int → Finset Int → Bool × Finset Int}
    (hfmono : ∀ d vis, vis ⊆ (f d vis).2)
    (hf : ∀ d vis, d ∈ U → d ∉ vis → (U \ vis).card + 1 ≤ n → (f d vis).1 = false →
      d ∈ (f d vis).2 ∧ IncOk adj tgt vis (f d vis).2) :
    ∀ ds vis, (∀ d ∈ ds, d ∈ U) → (U \ vis).card + 1 ≤ n →
      (dfsList f ds vis).1 = false →
      (∀ d ∈ ds, d ∈ (dfsList f ds vis).2) ∧
        IncOk adj tgt vis (dfsList f ds vis).2 := by
  intro ds
  induction ds with
  | nil =>
    intro vis _ hcard hfalse
    simp only [dfsList]
    exact ⟨by simp, IncOk.refl adj tgt vis⟩
  | cons d ds ih =>
    intro vis hdom hcard hfalse
    rw [dfsList] at hfalse ⊢
    by_cases hv : d ∈ vis
    · rw [if_pos hv] at hfalse ⊢
      obtain ⟨hall, hinc⟩ :=
        ih vis (fun d2 h => hdom d2 (List.mem_cons_of_mem d h)) hcard hfalse
      refine ⟨?_, hinc⟩
      intro d2 hd2
      rcases List.mem_cons.mp hd2 with h | h
      · exact h ▸ hinc.1 hv
      · exact hall d2 h
    · rw [if_neg hv] at hfalse ⊢
      rcases hfd : f d vis with ⟨b, vis1⟩
      rw [hfd] at hfalse
      cases b with
      | true => simp at hfalse
      | false =>
        have hd := hf d vis (hdom d (List.mem_cons_self d ds)) hv hcard (by rw [hfd])
        rw [hfd] at hd
        have hsub1 : vis ⊆ vis1 := by have := hfmono d vis; rwa [hfd] at this
        have hcard1 : (U \ vis1).card + 1 ≤ n :=
          le_trans (by have := card_sdiff_mono (U := U) hsub1; omega) hcard
        obtain ⟨hall, hinc⟩ :=
          ih vis1 (fun d2 h => hdom d2 (List.mem_cons_of_mem d h)) hcard1 hfalse
        have hsub2 : vis1 ⊆ (dfsList f ds vis1).2 := dfsList_mono hfmono ds vis1
        refine ⟨?_, hd.2.trans hinc⟩
        intro d2 hd2
        rcases List.mem_cons.mp hd2 with h | h
        · exact h ▸ hsub2 hd.1
        · exact hall d2 h

theorem dfsF_false (adj : Int → List Int) (tgt : Int) (U : Finset Int)
    (hT : ∀ a b, b ∈ adj a → b ∈ U) :
    ∀ fuel s vis, s ∈ U → s ∉ vis → (U \ vis).card + 1 ≤ fuel →
      (dfsF adj tgt fuel s vis).1 = false →
      s ∈ (dfsF adj tgt fuel s vis).2 ∧
        IncOk adj tgt vis (dfsF adj tgt fuel s vis).2 := by
  intro fuel
  induction fuel with
  | zero => intro s vis _ _ hcard; omega
  | succ fuel ih =>
    intro s vis hsU hsv hcard hfalse
    rw [dfsF] at hfalse ⊢
    by_cases h1 : s = tgt
    · rw [if_pos h1] at hfalse
      simp at hfalse
    · rw [if_neg h1] at hfalse ⊢
      have hcard1 : (U \ insert s vis).card + 1 ≤ fuel := by
        have := card_sdiff_insert hsU hsv
        omega
      obtain ⟨hall, hinc⟩ :=
        dfsList_false (dfsF_mono adj tgt fuel) (fun d vis hdU hdv hc => ih d vis hdU hdv hc)
          (adj s) (insert s vis) (fun d hd => hT s d hd) hcard1 hfalse
      have hsub : insert s vis ⊆ (dfsList (dfsF adj tgt fuel) (adj s) (insert s vis)).2 :=
        dfsList_mono (dfsF_mono adj tgt fuel) (adj s) (insert s vis)
      refine ⟨hsub (Finset.mem_insert_self s vis),
        (Finset.subset_insert s vis).trans hsub, ?_⟩
      intro x hx hxv
      by_cases hxs : x = s
      · subst hxs
        exact ⟨h1, hall⟩
      · exact hinc.2 x hx (fun hmem =>
          hxv (by rcases Finset.mem_insert.mp hmem with h | h
                  · exact absurd h hxs
                  · exact h))

/-- With enough fuel, the dfs of isReachable decides reachability. -/
theorem dfsF_iff_reach (adj : Int → List Int) (tgt : Int) (U : Finset Int)
    (hT : ∀ a b, b ∈ adj a → b ∈ U) (fuel : Nat) (hfuel : U.card + 1 ≤ fuel)
    (s : Int) (hsU : s ∈ U) :
    (dfsF adj tgt fuel s ∅).1 = true ↔ AReach adj s tgt := by
  constructor
  · exact dfsF_sound adj tgt fuel s ∅
  · intro hreach
    by_contra hne
    have hfalse : (dfsF adj tgt fuel s ∅).1 = false := by
      cases h : (dfsF adj tgt fuel s ∅).1
      · rfl
      · exact absurd h hne
    have hcard : (U \ (∅ : Finset Int)).card + 1 ≤ fuel := by
      rw [Finset.sdiff_empty]; exact hfuel
    obtain ⟨hs, _, hcl⟩ :=
      dfsF_false adj tgt U hT fuel s ∅ hsU (Finset.not_mem_empty s) hcard hfalse
    exact closed_no_reach
      (fun x hx => hcl x hx (Finset.not_mem_empty x)) s hs hreach

/-! ### Lookup lemmas and the graphs of the concrete functions -/

theorem findTask_some {tasks : List Task} {a : Int} {t : Task}
    (h : findTask tasks a = some t) : t ∈ tasks ∧ t.id = a := by
  unfold findTask at h
  refine ⟨List.mem_of_find?_eq_some h, ?_⟩
  have := List.find?_some h
  simpa using this

theorem mapGet_some {tasks : List Task} {a : Int} {t : Task}
    (h : mapGet tasks a = some t) : t ∈ tasks ∧ t.id = a := by
  unfold mapGet at h
  refine ⟨List.mem_reverse.mp (List.mem_of_find?_eq_some h), ?_⟩
  have := List.find?_some h
  simpa using this

theorem mem_adjFind {tasks : List Task} {a b : Int} :
    b ∈ adjFind tasks a ↔ ∃ t, findTask tasks a = some t ∧ b ∈ t.dependencies := by
  unfold adjFind
  cases h : findTask tasks a with
  | none => simp
  | some t => simp

theorem mem_adjMap {tasks : List Task} {a b : Int} :
    b ∈ adjMap tasks a ↔ ∃ t, mapGet tasks a = some t ∧ b ∈ t.dependencies := by
  unfold adjMap
  cases h : mapGet tasks a with
  | none => simp
  | some t => simp

theorem mem_adjAll {tasks : List Task} {a b : Int} :
    b ∈ adjAll tasks a ↔ depStep tasks a b := by
  unfold adjAll depStep
  simp only [List.mem_flatMap]
  constructor
  · rintro ⟨t, ht, hmem⟩
    by_cases hid : t.id = a
    · exact ⟨t, ht, hid, by simpa [hid] using hmem⟩
    · simp [hid] at hmem
  · rintro ⟨t, ht, hid, hmem⟩
    exact ⟨t, ht, by simpa [hid] using hmem⟩

theorem adjFind_sub_depStep {tasks : List Task} {a b : Int}
    (h : b ∈ adjFind tasks a) : depStep tasks a b := by
  obtain ⟨t, hf, hmem⟩ := mem_adjFind.mp h
  obtain ⟨ht, hid⟩ := findTask_some hf
  exact ⟨t, ht, hid, hmem⟩

theorem adjMap_sub_depStep {tasks : List Task} {a b : Int}
    (h : b ∈ adjMap tasks a) : depStep tasks a b := by
  obtain ⟨t, hf, hmem⟩ := mem_adjMap.mp h
  obtain ⟨ht, hid⟩ := mapGet_some hf
  exact ⟨t, ht, hid, hmem⟩

theorem adjSkip_sub_adjMap {tasks : List Task} {skipEdge : Int × Int} {a b : Int}
    (h : b ∈ adjSkip tasks skipEdge a) : b ∈ adjMap tasks a :=
  List.mem_of_mem_filter h

theorem adjFind_ne_nil_mem_ids {tasks : List Task} {a : Int}
    (h : adjFind tasks a ≠ []) : a ∈ idsFinset tasks := by
  unfold adjFind at h
  cases hf : findTask tasks a with
  | none => rw [hf] at h; simp at h
  | some t =>
    obtain ⟨ht, hid⟩ := findTask_some hf
    unfold idsFinset
    rw [List.mem_toFinset]
    exact hid ▸ List.mem_map_of_mem Task.id ht

theorem adjAll_ne_nil_mem_ids {tasks : List Task} {a : Int}
    (h : adjAll tasks a ≠ []) : a ∈ idsFinset tasks := by
  obtain ⟨b, hb⟩ := List.exists_mem_of_ne_nil _ h
  obtain ⟨t, ht, hid, _⟩ := mem_adjAll.mp hb
  unfold idsFinset
  rw [List.mem_toFinset]
  exact hid ▸ List.mem_map_of_mem Task.id ht

theorem adjMap_sub_universe {tasks : List Task} {a b : Int}
    (h : b ∈ adjMap tasks a) : b ∈ nodeUniverse tasks := by
  obtain ⟨t, hf, hmem⟩ := mem_adjMap.mp h
  obtain ⟨ht, _⟩ := mapGet_some hf
  unfold nodeUniverse
  rw [Finset.mem_union, List.mem_toFinset]
  exact Or.inr (List.mem_flatMap.mpr ⟨t, ht, hmem⟩)

/-- hasCycle decides reachability in the graph looked up by find. -/
theorem hasCycle_iff_reach (tasks : List Task) (s t : Int) :
    hasCycle tasks s t = true ↔ AReach (adjFind tasks) s t := by
  unfold hasCycle
  exact hcF_iff_reach (adjFind tasks) t (idsFinset tasks)
    (fun a ha => adjFind_ne_nil_mem_ids ha) _ (le_refl _) s

/-- isReachable decides reachability in the taskMap graph with the
skipped edge removed. -/
theorem isReachable_iff_reach (tasks : List Task) (skipEdge : Int × Int)
    (s t : Int) :
    isReachable tasks s t skipEdge = true ↔ AReach (adjSkip tasks skipEdge) s t := by
  unfold isReachable
  by_cases hst : s = t
  · simp [hst, AReach]
    exact Relation.ReflTransGen.refl
  · rw [if_neg (by simpa using hst)]
    exact dfsF_iff_reach (adjSkip tasks skipEdge) t (insert s (nodeUniverse tasks))
      (fun a b hb => Finset.mem_insert_of_mem
        (adjMap_sub_universe (adjSkip_sub_adjMap hb)))
      _ (le_refl _) s (Finset.mem_insert_self s _)

/-! ### Reachability toolbox -/

theorem AReach_mono {adj1 adj2 : Int → List Int}
    (h : ∀ a b, b ∈ adj1 a → b ∈ adj2 a) {s t : Int}
    (hr : AReach adj1 s t) : AReach adj2 s t :=
  Relation.ReflTransGen.mono (fun a b hab => h a b hab) hr

/-- Paths to a target that survives a vertex filter never pass through a
removed dead-end vertex, so they survive filtering the adjacency. -/
theorem AReach_filter {g : Int → List Int} {P : Int → Bool}
    (hdead : ∀ a, P a = false → g a = []) {s t : Int} (ht : P t = true)
    (h : AReach g s t) : AReach (fun a => (g a).filter P) s t := by
  induction h using Relation.ReflTransGen.head_induction_on with
  | refl => exact Relation.ReflTransGen.refl
  | head hstep hrest ih =>
    rename_i a c
    cases hPc : P c with
    | true =>
      refine Relation.ReflTransGen.head ?_ ih
      exact List.mem_filter.mpr ⟨hstep, hPc⟩
    | false =>
      exfalso
      rcases hrest.cases_head with heq | ⟨d, hstep2, _⟩
      · rw [heq, ht] at hPc
        exact Bool.noConfusion hPc
      · unfold AStep at hstep2
        rw [hdead c hPc] at hstep2
        exact absurd hstep2 (List.not_mem_nil d)

theorem transGen_of_rtg_ne {r : Int → Int → Prop} {a b : Int}
    (hab : Relation.ReflTransGen r a b) (hne : a ≠ b) :
    Relation.TransGen r a b := by
  rcases Relation.reflTransGen_iff_eq_or_transGen.mp hab with heq | h
  · exact absurd heq.symm hne
  · exact h

/-- Two distinct mutually reachable nodes yield a nonempty cycle. -/
theorem cycle_of_mutual {r : Int → Int → Prop} {a b : Int}
    (hab : Relation.ReflTransGen r a b) (hba : Relation.ReflTransGen r b a)
    (hne : a ≠ b) : Relation.TransGen r a a :=
  Relation.TransGen.trans_left (transGen_of_rtg_ne hab hne) hba

theorem transGen_exists_head {r : Int → Int → Prop} {a b : Int}
    (h : Relation.TransGen r a b) :
    ∃ c, r a c ∧ Relation.ReflTransGen r c b := by
  induction h using Relation.TransGen.head_induction_on with
  | base hstep => exact ⟨b, hstep, Relation.ReflTransGen.refl⟩
  | ih hstep hrest _ => exact ⟨_, hstep, hrest.to_reflTransGen⟩

theorem areach_adjAll_iff {tasks : List Task} {a b : Int} :
    AReach (adjAll tasks) a b ↔ Relation.ReflTransGen (depStep tasks) a b :=
  ⟨Relation.ReflTransGen.mono (fun _ _ h => mem_adjAll.mp h),
   Relation.ReflTransGen.mono (fun _ _ h => mem_adjAll.mpr h)⟩

theorem acyclic_iff_bool (tasks : List Task) :
    Acyclic tasks ↔ acyclicBool tasks = true := by
  unfold acyclicBool
  rw [List.all_eq_true]
  constructor
  · intro hA t ht
    rw [List.all_eq_true]
    intro d hd
    rw [Bool.not_eq_true']
    cases hres : (hcF (adjAll tasks) t.id ((idsFinset tasks).card + 1) d ∅).1 with
    | false => rfl
    | true =>
      exfalso
      have hreach : AReach (adjAll tasks) d t.id :=
        (hcF_iff_reach (adjAll tasks) t.id (idsFinset tasks)
          (fun a ha => adjAll_ne_nil_mem_ids ha) _ (le_refl _) d).mp hres
      have hrtg : Relation.ReflTransGen (depStep tasks) d t.id :=
        areach_adjAll_iff.mp hreach
      exact hA t.id (Relation.TransGen.head' ⟨t, ht, rfl, hd⟩ hrtg)
  · intro hB x htg
    obtain ⟨b, hstep, hrtg⟩ := transGen_exists_head htg
    obtain ⟨t, ht, hid, hmem⟩ := hstep
    have hall := hB t ht
    rw [List.all_eq_true] at hall
    have hb := hall b hmem
    rw [Bool.not_eq_true'] at hb
    have hiff := hcF_iff_reach (adjAll tasks) t.id (idsFinset tasks)
      (fun a ha => adjAll_ne_nil_mem_ids ha) ((idsFinset tasks).card + 1)
      (le_refl _) b
    rw [hb] at hiff
    have hreach : AReach (adjAll tasks) b t.id :=
      areach_adjAll_iff.mpr (hid ▸ hrtg)
    exact Bool.noConfusion (hiff.mpr hreach)

theorem acyclic_of_bool {tasks : List Task} (h : acyclicBool tasks = true) :
    Acyclic tasks :=
  (acyclic_iff_bool tasks).mpr h

theorem Acyclic.eq_of_mutual {tasks : List Task} (hA : Acyclic tasks)
    {a b : Int} (hab : Relation.ReflTransGen (depStep tasks) a b)
    (hba : Relation.ReflTransGen (depStep tasks) b a) : a = b := by
  by_contra hne
  exact hA a (cycle_of_mutual hab hba hne)

theorem reachableDeps_sub_depStep {tasks : List Task} {a b : Int}
    (h : reachableDeps tasks a b) :
    Relation.ReflTransGen (depStep tasks) a b :=
  Relation.ReflTransGen.mono (fun _ _ hs => adjMap_sub_depStep hs) h

/-! ### Unique ids -/

/-- With distinct task ids, looking a member task up by its id finds it. -/
theorem findTask_of_nodup {tasks : List Task} (hnd : (tasks.map Task.id).Nodup)
    {t : Task} (ht : t ∈ tasks) : findTask tasks t.id = some t := by
  unfold findTask
  cases hf : tasks.find? (fun t2 => t2.id == t.id) with
  | none =>
    exfalso
    have := List.find?_eq_none.mp hf t ht
    simp at this
  | some t2 =>
    obtain ⟨ht2, hid⟩ := findTask_some (t := t2) (by unfold findTask; exact hf)
    have : t2 = t := List.inj_on_of_nodup_map hnd ht2 ht hid
    rw [this]

theorem mapGet_of_nodup {tasks : List Task} (hnd : (tasks.map Task.id).Nodup)
    {t : Task} (ht : t ∈ tasks) : mapGet tasks t.id = some t := by
  unfold mapGet
  cases hf : tasks.reverse.find? (fun t2 => t2.id == t.id) with
  | none =>
    exfalso
    have := List.find?_eq_none.mp hf t (List.mem_reverse.mpr ht)
    simp at this
  | some t2 =>
    obtain ⟨ht2, hid⟩ := mapGet_some (t := t2) (by unfold mapGet; exact hf)
    have : t2 = t := List.inj_on_of_nodup_map hnd ht2 ht hid
    rw [this]

theorem depStep_sub_adjFind {tasks : List Task}
    (hnd : (tasks.map Task.id).Nodup) {a b : Int}
    (h : depStep tasks a b) : b ∈ adjFind tasks a := by
  obtain ⟨t, ht, hid, hmem⟩ := h
  rw [mem_adjFind]
  exact ⟨t, hid ▸ findTask_of_nodup hnd ht, hmem⟩

/-! ### Claims about the cycle guard -/

/-- C2: hasCycle(tasks, startId, targetId) returns true exactly when
targetId is reachable from startId along dependency edges of tasks
present in the snapshot, the trivial case startId = targetId included;
in particular, used as the cycle guard it answers true only when the
candidate's sentinel id is reachable from the proposed dependency id. -/
theorem C2_hasCycle_iff_reachable (tasks : List Task)
    (hnd : (tasks.map Task.id).Nodup) (startId targetId : Int) :
    hasCycle tasks startId targetId = true ↔
      Relation.ReflTransGen (depStep tasks) startId targetId := by
  rw [hasCycle_iff_reach]
  constructor
  · exact Relation.ReflTransGen.mono (fun a b hs => adjFind_sub_depStep hs)
  · exact Relation.ReflTransGen.mono (fun a b hs => depStep_sub_adjFind hnd hs)

theorem C2_hasCycle_iff_reachable_witness :
    (([⟨5, "a", 1, none, none, [3], none, none⟩,
       ⟨3, "b", 1, none, none, [], none, none⟩] : List Task).map Task.id).Nodup ∧
    (hasCycle [⟨5, "a", 1, none, none, [3], none, none⟩,
       ⟨3, "b", 1, none, none, [], none, none⟩] 5 (-1) = true ↔
      Relation.ReflTransGen
        (depStep [⟨5, "a", 1, none, none, [3], none, none⟩,
          ⟨3, "b", 1, none, none, [], none, none⟩]) 5 (-1)) :=
  ⟨by decide,
   C2_hasCycle_iff_reachable
     [⟨5, "a", 1, none, none, [3], none, none⟩,
      ⟨3, "b", 1, none, none, [], none, none⟩] (by decide) 5 (-1)⟩

/-- C9: hasCycle terminates on every finite snapshot, cycles and
self-loops included: the recursion is bounded by the growth of the
visited set, so any fuel of at least one more than the number of
distinct task ids yields the same answer as the chosen bound. -/
theorem C9_hasCycle_terminates (tasks : List Task) (startId targetId : Int)
    (fuel : Nat) (hfuel : (idsFinset tasks).card + 1 ≤ fuel) :
    (hcF (adjFind tasks) targetId fuel startId ∅).1 =
      hasCycle tasks startId targetId := by
  have h1 := hcF_iff_reach (adjFind tasks) targetId (idsFinset tasks)
    (fun a ha => adjFind_ne_nil_mem_ids ha) fuel hfuel startId
  have h2 := hasCycle_iff_reach tasks startId targetId
  cases ha : (hcF (adjFind tasks) targetId fuel startId ∅).1 with
  | true => exact (h2.mpr (h1.mp ha)).symm
  | false =>
    cases hb : hasCycle tasks startId targetId with
    | true => exact absurd (h1.mpr (h2.mp hb)) (by rw [ha]; simp)
    | false => rfl

theorem C9_hasCycle_terminates_witness :
    (idsFinset ([⟨1, "a", 1, none, none, [1], none, none⟩] : List Task)).card + 1 ≤ 9 ∧
    (hcF (adjFind [⟨1, "a", 1, none, none, [1], none, none⟩]) 2 9 1 ∅).1 =
      hasCycle [⟨1, "a", 1, none, none, [1], none, none⟩] 1 2 :=
  ⟨by decide,
   C9_hasCycle_terminates [⟨1, "a", 1, none, none, [1], none, none⟩] 1 2 9 (by decide)⟩

/-! ### Claims about the transitive reducer: shape -/

/-- C8: the reducer only narrows each task's dependency list, keeping a
subsequence of the original, and leaves every other field unchanged. -/
theorem C8_reduction_only_removes_edges (tasks : List Task) :
    List.Forall₂ (fun t t2 =>
      t2.dependencies.Sublist t.dependencies ∧ t2.id = t.id ∧
        t2.title = t.title ∧ t2.durationDays = t.durationDays ∧
        t2.dueDate = t.dueDate ∧ t2.imageUrl = t.imageUrl ∧
        t2.earliestStartDate = t.earliestStartDate ∧
        t2.onCriticalPath = t.onCriticalPath)
      tasks (computeTransitiveReduction tasks) := by
  unfold computeTransitiveReduction
  rw [List.forall₂_map_right_iff]
  rw [List.forall₂_same]
  intro t _
  unfold reduceTask
  exact ⟨List.filter_sublist _, rfl, rfl, rfl, rfl, rfl, rfl, rfl⟩

/-! ### Running-maximum folds -/

theorem init_le_foldMax (v : Int → Int) :
    ∀ (l : List Int) (init : Int),
      init ≤ l.foldl (fun m p => if m < v p then v p else m) init := by
  intro l
  induction l with
  | nil => intro init; simp
  | cons d l ih =>
    intro init
    rw [List.foldl_cons]
    refine le_trans ?_ (ih _)
    split <;> omega

theorem foldMax_ge_elem (v : Int → Int) :
    ∀ (l : List Int) (init : Int), ∀ d ∈ l,
      v d ≤ l.foldl (fun m p => if m < v p then v p else m) init := by
  intro l
  induction l with
  | nil => intro init d hd; simp at hd
  | cons d0 l ih =>
    intro init d hd
    rw [List.foldl_cons]
    rcases List.mem_cons.mp hd with h | h
    · subst h
      refine le_trans ?_ (init_le_foldMax v l _)
      split <;> omega
    · exact ih _ d h

theorem foldMax_eq_init_or_elem (v : Int → Int) :
    ∀ (l : List Int) (init : Int),
      l.foldl (fun m p => if m < v p then v p else m) init = init ∨
        ∃ d ∈ l, l.foldl (fun m p => if m < v p then v p else m) init = v d := by
  intro l
  induction l with
  | nil => intro init; simp
  | cons d0 l ih =>
    intro init
    rw [List.foldl_cons]
    rcases ih (if init < v d0 then v d0 else init) with h | ⟨d, hd, h⟩
    · rw [h]
      split
      · exact Or.inr ⟨d0, List.mem_cons_self d0 l, rfl⟩
      · exact Or.inl rfl
    · exact Or.inr ⟨d, List.mem_cons_of_mem d0 hd, h⟩

/-! ### Claims about the earliest-start propagator -/

/-- Unfolding getEarliestStartDate when the id resolves to a task. -/
theorem getEarliestStartDate_some {tasks : List Task} {projectStartDate taskId : Int}
    {task : Task} (hget : mapGet tasks taskId = some task) :
    getEarliestStartDate tasks projectStartDate taskId =
      if task.dependencies.isEmpty then parseDate task.dueDate projectStartDate
      else
        task.dependencies.foldl (fun maxParentDue parentId =>
          let parentDue :=
            parseDate ((mapGet tasks parentId).bind Task.dueDate) projectStartDate
          if maxParentDue < parentDue then parentDue else maxParentDue)
          projectStartDate := by
  unfold getEarliestStartDate
  rw [hget]

/-- C10: for a task with a non-empty dependency list the computed
earliest start never drops below projectStartDate, because the running
maximum starts at the project floor. -/
theorem C10_earliest_start_at_least_floor (tasks : List Task)
    (projectStartDate taskId : Int) (task : Task)
    (hget : mapGet tasks taskId = some task)
    (hdeps : task.dependencies ≠ []) :
    projectStartDate ≤ getEarliestStartDate tasks projectStartDate taskId := by
  rw [getEarliestStartDate_some hget]
  rw [if_neg (by simpa [List.isEmpty_iff] using hdeps)]
  exact init_le_foldMax _ task.dependencies projectStartDate

theorem C10_earliest_start_at_least_floor_witness :
    mapGet [⟨1, "a", 1, some (-5), none, [], none, none⟩,
            ⟨2, "b", 1, none, none, [1], none, none⟩] 2 =
      some ⟨2, "b", 1, none, none, [1], none, none⟩ ∧
    (([1] : List Int) ≠ []) ∧
    (10 : Int) ≤ getEarliestStartDate
      [⟨1, "a", 1, some (-5), none, [], none, none⟩,
       ⟨2, "b", 1, none, none, [1], none, none⟩] 10 2 :=
  ⟨by decide, by decide,
   C10_earliest_start_at_least_floor
     [⟨1, "a", 1, some (-5), none, [], none, none⟩,
      ⟨2, "b", 1, none, none, [1], none, none⟩] 10 2
     ⟨2, "b", 1, none, none, [1], none, none⟩ (by decide) (by decide)⟩

/-- C3 fails as stated: in this snapshot task 2 depends only on task 1,
whose parseable due date 0 lies before projectStartDate = 10; the claim
value is the dependency maximum 0, but the code answers 10. -/
theorem C3_counterexample :
    mapGet [⟨1, "a", 1, some 0, none, [], none, none⟩,
            ⟨2, "b", 1, none, none, [1], none, none⟩] 2 =
      some ⟨2, "b", 1, none, none, [1], none, none⟩ ∧
    getEarliestStartDate
      [⟨1, "a", 1, some 0, none, [], none, none⟩,
       ⟨2, "b", 1, none, none, [1], none, none⟩] 10 2 = 10 ∧
    depDueMaxClaim
      [⟨1, "a", 1, some 0, none, [], none, none⟩,
       ⟨2, "b", 1, none, none, [1], none, none⟩] 10 [1] = 0 ∧
    getEarliestStartDate
      [⟨1, "a", 1, some 0, none, [], none, none⟩,
       ⟨2, "b", 1, none, none, [1], none, none⟩] 10 2 ≠
      depDueMaxClaim
        [⟨1, "a", 1, some 0, none, [], none, none⟩,
         ⟨2, "b", 1, none, none, [1], none, none⟩] 10 [1] := by
  refine ⟨by decide, by decide, by decide, by decide⟩

/-- C3 amended: a task with no dependencies receives its own parsed due
date (projectStartDate when absent); a task with dependencies receives
the maximum of projectStartDate and the parsed due dates of its direct
dependencies (projectStartDate substituted for any dependency without a
parseable due date), a one-hop lookback that never recurses. -/
theorem C3_earliest_start_amended (tasks : List Task)
    (projectStartDate taskId : Int) (task : Task)
    (hget : mapGet tasks taskId = some task) :
    (task.dependencies = [] →
      getEarliestStartDate tasks projectStartDate taskId =
        parseDate task.dueDate projectStartDate) ∧
    (task.dependencies ≠ [] →
      projectStartDate ≤ getEarliestStartDate tasks projectStartDate taskId ∧
      (∀ d ∈ task.dependencies,
        parseDate ((mapGet tasks d).bind Task.dueDate) projectStartDate ≤
          getEarliestStartDate tasks projectStartDate taskId) ∧
      (getEarliestStartDate tasks projectStartDate taskId = projectStartDate ∨
        ∃ d ∈ task.dependencies,
          getEarliestStartDate tasks projectStartDate taskId =
            parseDate ((mapGet tasks d).bind Task.dueDate) projectStartDate)) := by
  constructor
  · intro hnil
    rw [getEarliestStartDate_some hget, if_pos (by simp [hnil])]
  · intro hdeps
    rw [getEarliestStartDate_some hget,
      if_neg (by simpa [List.isEmpty_iff] using hdeps)]
    refine ⟨init_le_foldMax _ task.dependencies projectStartDate,
      fun d hd => foldMax_ge_elem _ task.dependencies projectStartDate d hd,
      foldMax_eq_init_or_elem _ task.dependencies projectStartDate⟩

theorem C3_earliest_start_amended_witness :
    mapGet [⟨1, "a", 1, some 10, none, [], none, none⟩,
            ⟨2, "b", 1, none, none, [1], none, none⟩] 2 =
      some ⟨2, "b", 1, none, none, [1], none, none⟩ ∧
    ((⟨2, "b", 1, none, none, [1], none, none⟩ : Task).dependencies ≠ []) ∧
    (1 : Int) ≤ getEarliestStartDate
      [⟨1, "a", 1, some 10, none, [], none, none⟩,
       ⟨2, "b", 1, none, none, [1], none, none⟩] 1 2 :=
  ⟨by decide, by decide,
   ((C3_earliest_start_amended
      [⟨1, "a", 1, some 10, none, [], none, none⟩,
       ⟨2, "b", 1, none, none, [1], none, none⟩] 1 2
      ⟨2, "b", 1, none, none, [1], none, none⟩ (by decide)).2 (by decide)).1⟩

/-! ### Layering: termination measure and fixed-point equation -/

theorem mem_childrenOf {tasks : List Task} {c p : Int} :
    c ∈ childrenOf tasks p ↔ depStep tasks c p := by
  unfold childrenOf depStep
  simp only [List.mem_map, List.mem_filter]
  constructor
  · rintro ⟨t, ⟨ht, hcont⟩, hid⟩
    exact ⟨t, ht, hid, by simpa using hcont⟩
  · rintro ⟨t, ht, hid, hmem⟩
    exact ⟨t, ⟨ht, by simpa using hmem⟩, hid⟩

theorem descSet_finite (tasks : List Task) (x : Int) :
    (descSet tasks x).Finite :=
  Set.Finite.subset (List.finite_toSet (tasks.map Task.id)) (fun _ hy => hy.1)

theorem descSet_subset_ids (tasks : List Task) (x : Int) :
    descSet tasks x ⊆ {y | y ∈ tasks.map Task.id} :=
  fun _ hy => hy.1

theorem descSet_card_lt {tasks : List Task} (hA : Acyclic tasks)
    {c p : Int} (hstep : depStep tasks c p) :
    (descSet tasks c).ncard < (descSet tasks p).ncard := by
  have hss : descSet tasks c ⊂ descSet tasks p := by
    constructor
    · rintro y ⟨hy1, hy2⟩
      exact ⟨hy1, hy2.tail hstep⟩
    · intro hsub
      have hcid : c ∈ tasks.map Task.id := by
        obtain ⟨t, ht, hid, _⟩ := hstep
        exact hid ▸ List.mem_map_of_mem Task.id ht
      have hcp : c ∈ descSet tasks p := ⟨hcid, Relation.TransGen.single hstep⟩
      exact hA c (hsub hcp).2
  exact Set.ncard_lt_ncard hss (descSet_finite tasks p)

theorem descSet_card_le_ids (tasks : List Task) (x : Int) :
    (descSet tasks x).ncard ≤ (idsFinset tasks).card := by
  have h1 : (descSet tasks x).ncard ≤
      Set.ncard {y : Int | y ∈ tasks.map Task.id} := by
    refine Set.ncard_le_ncard (descSet_subset_ids tasks x) ?_
    exact List.finite_toSet (tasks.map Task.id)
  have h2 : {y : Int | y ∈ tasks.map Task.id} = ↑(idsFinset tasks) := by
    unfold idsFinset
    ext y
    simp
  rw [h2, Set.ncard_coe_Finset] at h1
  exact h1

theorem le_foldlMaxNat : ∀ (l : List Nat) (init : Nat), init ≤ l.foldl max init := by
  intro l
  induction l with
  | nil => intro init; simp
  | cons d l ih =>
    intro init
    rw [List.foldl_cons]
    exact le_trans (Nat.le_max_left init d) (ih _)

theorem foldlMaxNat_ge : ∀ (l : List Nat) (init : Nat), ∀ d ∈ l, d ≤ l.foldl max init := by
  intro l
  induction l with
  | nil => intro init d hd; simp at hd
  | cons d0 l ih =>
    intro init d hd
    rw [List.foldl_cons]
    rcases List.mem_cons.mp hd with h | h
    · subst h
      exact le_trans (Nat.le_max_right init d) (le_foldlMaxNat l _)
    · exact ih _ d h

theorem foldlMaxNat_eq_init_or_mem :
    ∀ (l : List Nat) (init : Nat), l.foldl max init = init ∨ l.foldl max init ∈ l := by
  intro l
  induction l with
  | nil => intro init; simp
  | cons d0 l ih =>
    intro init
    rw [List.foldl_cons]
    rcases ih (max init d0) with h | h
    · rw [h]
      rcases Nat.le_total init d0 with hle | hle
      · rw [Nat.max_eq_right hle]
        exact Or.inr (List.mem_cons_self d0 l)
      · rw [Nat.max_eq_left hle]
        exact Or.inl rfl
    · exact Or.inr (List.mem_cons_of_mem d0 h)

/-- On an acyclic snapshot the layering recursion stabilizes: every fuel
beyond the count of strict descendants gives the same height. -/
theorem heightF_stab (tasks : List Task) (hA : Acyclic tasks) :
    ∀ (k : Nat) (p : Int), (descSet tasks p).ncard ≤ k →
      ∀ f1 f2, (descSet tasks p).ncard + 1 ≤ f1 →
        (descSet tasks p).ncard + 1 ≤ f2 →
        heightF tasks f1 p = heightF tasks f2 p := by
  intro k
  induction k with
  | zero =>
    intro p hk f1 f2 hf1 hf2
    obtain ⟨n1, rfl⟩ : ∃ n1, f1 = n1 + 1 := ⟨f1 - 1, by omega⟩
    obtain ⟨n2, rfl⟩ : ∃ n2, f2 = n2 + 1 := ⟨f2 - 1, by omega⟩
    rw [heightF, heightF]
    cases hch : (childrenOf tasks p).isEmpty with
    | true => simp [hch]
    | false =>
      exfalso
      obtain ⟨c, hc⟩ := List.exists_mem_of_ne_nil _
        (by simpa [List.isEmpty_iff] using hch)
      have := descSet_card_lt hA (mem_childrenOf.mp hc)
      omega
  | succ k ih =>
    intro p hk f1 f2 hf1 hf2
    obtain ⟨n1, rfl⟩ : ∃ n1, f1 = n1 + 1 := ⟨f1 - 1, by omega⟩
    obtain ⟨n2, rfl⟩ : ∃ n2, f2 = n2 + 1 := ⟨f2 - 1, by omega⟩
    rw [heightF, heightF]
    cases hch : (childrenOf tasks p).isEmpty with
    | true => simp [hch]
    | false =>
      simp only [hch, Bool.false_eq_true, if_false]
      have hmapeq : (childrenOf tasks p).map (heightF tasks n1) =
          (childrenOf tasks p).map (heightF tasks n2) := by
        refine List.map_congr_left ?_
        intro c hc
        have hlt := descSet_card_lt hA (mem_childrenOf.mp hc)
        exact ih c (by omega) n1 n2 (by omega) (by omega)
      rw [hmapeq]

/-- On an acyclic snapshot layerOf satisfies the defining fixed point of
getHeight: 0 without dependents, otherwise one more than the maximal
height of the dependents. -/
theorem layerOf_spec (tasks : List Task) (hA : Acyclic tasks) (pid : Int) :
    (childrenOf tasks pid = [] → layerOf tasks pid = 0) ∧
    (childrenOf tasks pid ≠ [] →
      (∀ c ∈ childrenOf tasks pid, layerOf tasks c + 1 ≤ layerOf tasks pid) ∧
      (∃ c ∈ childrenOf tasks pid, layerOf tasks pid = layerOf tasks c + 1)) := by
  have hunfold : layerOf tasks pid =
      if (childrenOf tasks pid).isEmpty then 0
      else 1 + ((childrenOf tasks pid).map
        (heightF tasks ((idsFinset tasks).card))).foldl max 0 := by
    unfold layerOf
    rw [heightF]
  have hchild_stab : ∀ c ∈ childrenOf tasks pid,
      heightF tasks ((idsFinset tasks).card) c = layerOf tasks c := by
    intro c hc
    have hstep := mem_childrenOf.mp hc
    have hcid : c ∈ idsFinset tasks := by
      obtain ⟨t, ht, hid, _⟩ := hstep
      unfold idsFinset
      rw [List.mem_toFinset]
      exact hid ▸ List.mem_map_of_mem Task.id ht
    have hcnotdesc : c ∉ descSet tasks c := fun hmem => hA c hmem.2
    have hcard : (descSet tasks c).ncard + 1 ≤ (idsFinset tasks).card := by
      have hsub : descSet tasks c ⊆ (↑(idsFinset tasks) \ {c} : Set Int) := by
        intro y hy
        refine ⟨?_, ?_⟩
        · have := hy.1
          unfold idsFinset
          simpa using this
        · intro heq
          rw [Set.mem_singleton_iff] at heq
          exact hcnotdesc (heq ▸ hy)
      have h1 : (descSet tasks c).ncard ≤
          Set.ncard (↑(idsFinset tasks) \ {c} : Set Int) := by
        refine Set.ncard_le_ncard hsub ?_
        exact Set.Finite.subset (Finset.finite_toSet _) Set.diff_subset
      have h2 : (↑(idsFinset tasks) \ {c} : Set Int) = ↑((idsFinset tasks).erase c) := by
        rw [Finset.coe_erase]
      rw [h2, Set.ncard_coe_Finset, Finset.card_erase_of_mem hcid] at h1
      have hpos : 0 < (idsFinset tasks).card := Finset.card_pos.mpr ⟨c, hcid⟩
      omega
    unfold layerOf
    exact heightF_stab tasks hA ((descSet tasks c).ncard) c (le_refl _)
      ((idsFinset tasks).card) ((idsFinset tasks).card + 1) hcard (by omega)
  constructor
  · intro hnil
    rw [hunfold, if_pos (by simp [hnil])]
  · intro hne
    rw [hunfold, if_neg (by simpa [List.isEmpty_iff] using hne)]
    have hmapeq : (childrenOf tasks pid).map (heightF tasks ((idsFinset tasks).card)) =
        (childrenOf tasks pid).map (layerOf tasks) :=
      List.map_congr_left hchild_stab
    rw [hmapeq]
    constructor
    · intro c hc
      have : layerOf tasks c ≤
          ((childrenOf tasks pid).map (layerOf tasks)).foldl max 0 :=
        foldlMaxNat_ge _ 0 (layerOf tasks c) (List.mem_map_of_mem _ hc)
      omega
    · rcases foldlMaxNat_eq_init_or_mem
        ((childrenOf tasks pid).map (layerOf tasks)) 0 with h | h
      · obtain ⟨c, hc⟩ := List.exists_mem_of_ne_nil _ hne
        refine ⟨c, hc, ?_⟩
        have hle : layerOf tasks c ≤
            ((childrenOf tasks pid).map (layerOf tasks)).foldl max 0 :=
          foldlMaxNat_ge _ 0 (layerOf tasks c) (List.mem_map_of_mem _ hc)
        rw [h] at hle ⊢
        omega
      · obtain ⟨c, hc, heq⟩ := List.mem_map.mp h
        exact ⟨c, hc, by omega⟩

/-- C5: on an acyclic snapshot computeUpwardLayers gives every task a
natural-number layer with the contracted fixed point: a task no other
task lists as a dependency has layer 0, and a task with dependents has
layer one more than the maximal layer of the tasks whose dependency
lists include it (childrenOf lists exactly those tasks' ids). -/
theorem C5_layering_fixed_point (tasks : List Task) (hA : Acyclic tasks)
    (t : Task) (_ht : t ∈ tasks) :
    (childrenOf tasks t.id = [] → layerOf tasks t.id = 0) ∧
    (childrenOf tasks t.id ≠ [] →
      (∀ c ∈ childrenOf tasks t.id, layerOf tasks c + 1 ≤ layerOf tasks t.id) ∧
      (∃ c ∈ childrenOf tasks t.id, layerOf tasks t.id = layerOf tasks c + 1)) :=
  layerOf_spec tasks hA t.id

theorem C5_layering_fixed_point_witness :
    acyclicBool [⟨8, "a", 1, none, none, [], none, none⟩,
                 ⟨9, "b", 1, none, none, [8], none, none⟩] = true ∧
    ((⟨9, "b", 1, none, none, [8], none, none⟩ : Task) ∈
      [⟨8, "a", 1, none, none, [], none, none⟩,
       ⟨9, "b", 1, none, none, [8], none, none⟩]) ∧
    (childrenOf [⟨8, "a", 1, none, none, [], none, none⟩,
        ⟨9, "b", 1, none, none, [8], none, none⟩]
        (⟨9, "b", 1, none, none, [8], none, none⟩ : Task).id = [] →
      layerOf [⟨8, "a", 1, none, none, [], none, none⟩,
        ⟨9, "b", 1, none, none, [8], none, none⟩]
        (⟨9, "b", 1, none, none, [8], none, none⟩ : Task).id = 0) :=
  ⟨by decide, by decide,
   (C5_layering_fixed_point
     [⟨8, "a", 1, none, none, [], none, none⟩,
      ⟨9, "b", 1, none, none, [8], none, none⟩]
     (acyclic_of_bool (by decide))
     ⟨9, "b", 1, none, none, [8], none, none⟩ (by decide)).1⟩

/-! ### Idempotence of the reducer -/

theorem mapGet_map {tasks : List Task} {f : Task → Task}
    (hid : ∀ t, (f t).id = t.id) (i : Int) :
    mapGet (tasks.map f) i = (mapGet tasks i).map f := by
  unfold mapGet
  rw [← List.map_reverse, List.find?_map]
  have hcomp : ((fun t : Task => t.id == i) ∘ f) = (fun t : Task => t.id == i) := by
    funext t
    simp [Function.comp, hid t]
  rw [hcomp]

theorem reduceTask_id (tasks : List Task) (t : Task) :
    (reduceTask tasks t).id = t.id := rfl

theorem adjMap_reduction_sub {tasks : List Task} {a b : Int}
    (h : b ∈ adjMap (computeTransitiveReduction tasks) a) : b ∈ adjMap tasks a := by
  unfold adjMap at h ⊢
  unfold computeTransitiveReduction at h
  rw [mapGet_map (reduceTask_id tasks)] at h
  cases hm : mapGet tasks a with
  | none => rw [hm] at h; simp at h
  | some t =>
    rw [hm] at h
    simp only [Option.map_some, Option.map, Option.getD] at h ⊢
    exact List.mem_of_mem_filter h

theorem adjSkip_reduction_sub {tasks : List Task} {skipEdge : Int × Int} {a b : Int}
    (h : b ∈ adjSkip (computeTransitiveReduction tasks) skipEdge a) :
    b ∈ adjSkip tasks skipEdge a := by
  unfold adjSkip at h ⊢
  rcases List.mem_filter.mp h with ⟨hmem, hpred⟩
  exact List.mem_filter.mpr ⟨adjMap_reduction_sub hmem, hpred⟩

theorem reduceTask_deps (tasks : List Task) (t : Task) :
    (reduceTask tasks t).dependencies =
      t.dependencies.filter (fun depId =>
        !((t.dependencies.filter (fun d => d != depId)).any
          (fun otherDepId => isReachable tasks otherDepId depId (t.id, depId)))) := rfl

/-- A task none of whose dependencies has a redundancy witness is left
unchanged by reduceTask. -/
theorem reduceTask_eq_self {tasks2 : List Task} {x : Task}
    (h : ∀ d ∈ x.dependencies,
      (x.dependencies.filter (fun d2 => d2 != d)).any
        (fun otherDepId => isReachable tasks2 otherDepId d (x.id, d)) = false) :
    reduceTask tasks2 x = x := by
  unfold reduceTask
  have hfilter : x.dependencies.filter (fun depId =>
      !((x.dependencies.filter (fun d2 => d2 != depId)).any
        (fun otherDepId => isReachable tasks2 otherDepId depId (x.id, depId)))) =
      x.dependencies := by
    refine List.filter_eq_self.mpr ?_
    intro d hd
    rw [h d hd]
    rfl
  rw [hfilter]

/-- The reducer is idempotent on every snapshot: an edge the first pass
kept has no alternative path witnessing redundancy in the output graph,
whose edges are a subset of the original edges. -/
theorem computeTR_idem (tasks : List Task) :
    computeTransitiveReduction (computeTransitiveReduction tasks) =
      computeTransitiveReduction tasks := by
  conv_lhs => rw [computeTransitiveReduction, computeTransitiveReduction]
  rw [List.map_map]
  conv_rhs => rw [computeTransitiveReduction]
  refine List.map_congr_left ?_
  intro t _
  show reduceTask (computeTransitiveReduction tasks) (reduceTask tasks t) =
    reduceTask tasks t
  refine reduceTask_eq_self ?_
  intro d hd
  rw [reduceTask_deps] at hd
  rcases List.mem_filter.mp hd with ⟨hdmem, hdpred⟩
  rw [Bool.not_eq_true'] at hdpred
  cases hany : ((reduceTask tasks t).dependencies.filter (fun d2 => d2 != d)).any
      (fun otherDepId =>
        isReachable (computeTransitiveReduction tasks) otherDepId d
          ((reduceTask tasks t).id, d)) with
  | false => rfl
  | true =>
    exfalso
    obtain ⟨od, hod, hodr⟩ := List.any_eq_true.mp hany
    rcases List.mem_filter.mp hod with ⟨hod1, hodne⟩
    rw [reduceTask_deps] at hod1
    rcases List.mem_filter.mp hod1 with ⟨hodmem, _⟩
    rw [reduceTask_id] at hodr
    have hreach2 : AReach (adjSkip (computeTransitiveReduction tasks) (t.id, d)) od d :=
      (isReachable_iff_reach (computeTransitiveReduction tasks) (t.id, d) od d).mp hodr
    have hreach1 : AReach (adjSkip tasks (t.id, d)) od d :=
      AReach_mono (fun a b hb => adjSkip_reduction_sub hb) hreach2
    have hodtrue : isReachable tasks od d (t.id, d) = true :=
      (isReachable_iff_reach tasks (t.id, d) od d).mpr hreach1
    have hcontra : (t.dependencies.filter (fun d2 => d2 != d)).any
        (fun otherDepId => isReachable tasks otherDepId d (t.id, d)) = true :=
      List.any_eq_true.mpr ⟨od, List.mem_filter.mpr ⟨hodmem, hodne⟩, hodtrue⟩
    rw [hcontra] at hdpred
    exact Bool.noConfusion hdpred

/-- C6: on an acyclic snapshot, applying the transitive reducer twice
yields the same dependency lists per task as applying it once. -/
theorem C6_reduction_idempotent (tasks : List Task) (_hA : Acyclic tasks) :
    computeTransitiveReduction (computeTransitiveReduction tasks) =
      computeTransitiveReduction tasks :=
  computeTR_idem tasks

theorem C6_reduction_idempotent_witness :
    acyclicBool [⟨1, "a", 1, none, none, [], none, none⟩,
                 ⟨2, "b", 1, none, none, [1], none, none⟩,
                 ⟨3, "c", 1, none, none, [1, 2], none, none⟩] = true ∧
    computeTransitiveReduction (computeTransitiveReduction
      [⟨1, "a", 1, none, none, [], none, none⟩,
       ⟨2, "b", 1, none, none, [1], none, none⟩,
       ⟨3, "c", 1, none, none, [1, 2], none, none⟩]) =
      computeTransitiveReduction
        [⟨1, "a", 1, none, none, [], none, none⟩,
         ⟨2, "b", 1, none, none, [1], none, none⟩,
         ⟨3, "c", 1, none, none, [1, 2], none, none⟩] :=
  ⟨by decide,
   C6_reduction_idempotent
     [⟨1, "a", 1, none, none, [], none, none⟩,
      ⟨2, "b", 1, none, none, [1], none, none⟩,
      ⟨3, "c", 1, none, none, [1, 2], none, none⟩]
     (acyclic_of_bool (by decide))⟩

/-! ### Reachability preservation of the reducer -/

theorem areach_adjMap_cases {tasks : List Task} {a x : Int}
    (h : AReach (adjMap tasks) a x) : x = a ∨ x ∈ nodeUniverse tasks := by
  induction h with
  | refl => exact Or.inl rfl
  | tail _ hstep _ => exact Or.inr (adjMap_sub_universe hstep)

theorem interSet_finite (tasks : List Task) (a b : Int) :
    (interSet tasks a b).Finite := by
  refine Set.Finite.subset ((insert a (nodeUniverse tasks)).finite_toSet) ?_
  intro x hx
  rcases areach_adjMap_cases hx.1 with h | h
  · rw [h]
    exact Finset.mem_insert_self a _
  · exact Finset.mem_insert_of_mem h

theorem no_mutual_adjMap {tasks : List Task} (hA : Acyclic tasks)
    {x y : Int} (hxy : AReach (adjMap tasks) x y)
    (hyx : AReach (adjMap tasks) y x) : x = y := by
  by_contra hne
  have hcycle : Relation.TransGen (AStep (adjMap tasks)) x x :=
    cycle_of_mutual hxy hyx hne
  exact hA x (Relation.TransGen.mono (fun _ _ hs => adjMap_sub_depStep hs) hcycle)

theorem inter_card_lt {tasks : List Task} {a b c y : Int}
    (hsub : interSet tasks c y ⊆ interSet tasks a b) {w : Int}
    (hw : w ∈ interSet tasks a b) (hnw : w ∉ interSet tasks c y) :
    (interSet tasks c y).ncard < (interSet tasks a b).ncard :=
  Set.ncard_lt_ncard ⟨hsub, fun hsub2 => hnw (hsub2 hw)⟩ (interSet_finite tasks a b)

theorem mapGet_reduction (tasks : List Task) (a : Int) :
    mapGet (computeTransitiveReduction tasks) a =
      (mapGet tasks a).map (reduceTask tasks) := by
  unfold computeTransitiveReduction
  exact mapGet_map (reduceTask_id tasks) a

/-- The skip filter of the reducer never lets the tested edge through. -/
theorem adjSkip_not_skip {tasks : List Task} {a0 b0 c y : Int}
    (h : y ∈ adjSkip tasks (a0, b0) c) : ¬(c = a0 ∧ y = b0) := by
  rcases List.mem_filter.mp h with ⟨_, hpred⟩
  rintro ⟨rfl, rfl⟩
  simp at hpred

/-- Replacing one removed edge: every edge of the chain from the
redundancy witness to the removed edge's target has a strictly smaller
interval, so the strong induction hypothesis rebuilds it in the reduced
graph. -/
theorem chain_replacement (tasks : List Task) (hA : Acyclic tasks)
    (n : Nat) (a b : Int)
    (ih : ∀ a2 b2, (interSet tasks a2 b2).ncard ≤ n → b2 ∈ adjMap tasks a2 →
      AReach (adjMap (computeTransitiveReduction tasks)) a2 b2)
    (hm : (interSet tasks a b).ncard ≤ n + 1)
    (hedgeab : b ∈ adjMap tasks a) :
    ∀ c, AReach (adjSkip tasks (a, b)) c b → AReach (adjMap tasks) a c →
      AReach (adjMap (computeTransitiveReduction tasks)) c b := by
  intro c hchain
  induction hchain using Relation.ReflTransGen.head_induction_on with
  | refl => intro _; exact Relation.ReflTransGen.refl
  | head hstep hrest ihc =>
    rename_i c0 y
    intro hac
    have hcy : y ∈ adjMap tasks c0 := adjSkip_sub_adjMap hstep
    have hnotskip := adjSkip_not_skip hstep
    have hyb : AReach (adjMap tasks) y b :=
      AReach_mono (fun _ _ hs => adjSkip_sub_adjMap hs) hrest
    have hay : AReach (adjMap tasks) a y := hac.tail hcy
    have hsub : interSet tasks c0 y ⊆ interSet tasks a b := by
      rintro x ⟨hx1, hx2⟩
      exact ⟨hac.trans hx1, hx2.trans hyb⟩
    have hlt : (interSet tasks c0 y).ncard < (interSet tasks a b).ncard := by
      by_cases hca : c0 = a
      · subst hca
        have hyne : y ≠ b := fun hyb0 => hnotskip ⟨rfl, hyb0⟩
        refine inter_card_lt hsub
          (w := b) ⟨Relation.ReflTransGen.single hedgeab, Relation.ReflTransGen.refl⟩ ?_
        rintro ⟨_, hby⟩
        exact hyne (no_mutual_adjMap hA hyb hby)
      · refine inter_card_lt hsub
          (w := a) ⟨Relation.ReflTransGen.refl, Relation.ReflTransGen.single hedgeab⟩ ?_
        rintro ⟨hc0a, _⟩
        exact hca (no_mutual_adjMap hA hc0a hac)
    have hR1 : AReach (adjMap (computeTransitiveReduction tasks)) c0 y :=
      ih c0 y (by omega) hcy
    exact hR1.trans (ihc hay)

/-- Every dependency edge of the original graph is replaced by a path in
the reduced graph, by strong induction on the interval size. -/
theorem edge_replacement (tasks : List Task) (hA : Acyclic tasks) :
    ∀ (n : Nat) (a b : Int), (interSet tasks a b).ncard ≤ n →
      b ∈ adjMap tasks a →
      AReach (adjMap (computeTransitiveReduction tasks)) a b := by
  intro n
  induction n with
  | zero =>
    intro a b hcard hedge
    exfalso
    have ha : a ∈ interSet tasks a b :=
      ⟨Relation.ReflTransGen.refl, Relation.ReflTransGen.single hedge⟩
    have := Set.ncard_pos (interSet_finite tasks a b) |>.mpr ⟨a, ha⟩
    omega
  | succ n ih =>
    intro a b hcard hedge
    obtain ⟨task, hget, hbmem⟩ := mem_adjMap.mp hedge
    have hida : task.id = a := (mapGet_some hget).2
    by_cases hkept :
        (!((task.dependencies.filter (fun d => d != b)).any
          (fun otherDepId => isReachable tasks otherDepId b (task.id, b)))) = true
    · refine Relation.ReflTransGen.single ?_
      show b ∈ adjMap (computeTransitiveReduction tasks) a
      rw [mem_adjMap]
      refine ⟨reduceTask tasks task, ?_, ?_⟩
      · rw [mapGet_reduction, hget]
        rfl
      · rw [reduceTask_deps]
        exact List.mem_filter.mpr ⟨hbmem, hkept⟩
    · rw [Bool.not_eq_true', Bool.eq_false_iff, Ne, Bool.not_eq_true] at hkept
      have hany : (task.dependencies.filter (fun d => d != b)).any
          (fun otherDepId => isReachable tasks otherDepId b (task.id, b)) = true := by
        cases h : (task.dependencies.filter (fun d => d != b)).any
            (fun otherDepId => isReachable tasks otherDepId b (task.id, b)) with
        | true => rfl
        | false => exact absurd h hkept
      obtain ⟨d2, hd2f, hd2r⟩ := List.any_eq_true.mp hany
      rcases List.mem_filter.mp hd2f with ⟨hd2mem, hd2ne0⟩
      have hd2ne : d2 ≠ b := by simpa using hd2ne0
      rw [hida] at hd2r
      have hskipreach : AReach (adjSkip tasks (a, b)) d2 b :=
        (isReachable_iff_reach tasks (a, b) d2 b).mp hd2r
      have hd2b : AReach (adjMap tasks) d2 b :=
        AReach_mono (fun _ _ hs => adjSkip_sub_adjMap hs) hskipreach
      have hedgead2 : d2 ∈ adjMap tasks a :=
        mem_adjMap.mpr ⟨task, hget, hd2mem⟩
      have hsub : interSet tasks a d2 ⊆ interSet tasks a b := by
        rintro x ⟨hx1, hx2⟩
        exact ⟨hx1, hx2.trans hd2b⟩
      have hlt : (interSet tasks a d2).ncard < (interSet tasks a b).ncard := by
        refine inter_card_lt hsub
          (w := b) ⟨Relation.ReflTransGen.single hedge, Relation.ReflTransGen.refl⟩ ?_
        rintro ⟨_, hbd2⟩
        exact hd2ne (no_mutual_adjMap hA hd2b hbd2)
      have hR1 : AReach (adjMap (computeTransitiveReduction tasks)) a d2 :=
        ih a d2 (by omega) hedgead2
      have hR2 : AReach (adjMap (computeTransitiveReduction tasks)) d2 b :=
        chain_replacement tasks hA n a b ih hcard hedge d2 hskipreach
          (Relation.ReflTransGen.single hedgead2)
      exact hR1.trans hR2

/-- C1: on an acyclic snapshot the transitive reducer preserves the
reachability closure: an id is reachable from a task along the original
dependency lists exactly when it is reachable along the reduced lists;
in particular no edge that is the only path between two nodes is
removed. -/
theorem C1_reduction_preserves_reachability (tasks : List Task)
    (hA : Acyclic tasks) (t x : Int) :
    reachableDeps tasks t x ↔
      reachableDeps (computeTransitiveReduction tasks) t x := by
  constructor
  · intro h
    unfold reachableDeps at h ⊢
    induction h with
    | refl => exact Relation.ReflTransGen.refl
    | tail _ hstep ihr =>
      rename_i m c _
      refine ihr.trans ?_
      exact edge_replacement tasks hA ((interSet tasks m c).ncard) m c (le_refl _) hstep
  · intro h
    exact AReach_mono (fun a b hb => adjMap_reduction_sub hb) h

theorem C1_reduction_preserves_reachability_witness :
    acyclicBool [⟨1, "a", 1, none, none, [], none, none⟩,
                 ⟨2, "b", 1, none, none, [1], none, none⟩,
                 ⟨3, "c", 1, none, none, [1, 2], none, none⟩] = true ∧
    (reachableDeps [⟨1, "a", 1, none, none, [], none, none⟩,
        ⟨2, "b", 1, none, none, [1], none, none⟩,
        ⟨3, "c", 1, none, none, [1, 2], none, none⟩] 3 1 ↔
      reachableDeps (computeTransitiveReduction
        [⟨1, "a", 1, none, none, [], none, none⟩,
         ⟨2, "b", 1, none, none, [1], none, none⟩,
         ⟨3, "c", 1, none, none, [1, 2], none, none⟩]) 3 1) :=
  ⟨by decide,
   C1_reduction_preserves_reachability
     [⟨1, "a", 1, none, none, [], none, none⟩,
      ⟨2, "b", 1, none, none, [1], none, none⟩,
      ⟨3, "c", 1, none, none, [1, 2], none, none⟩]
     (acyclic_of_bool (by decide)) 3 1⟩

/-! ### Dangling dependency ids -/

theorem resolves_iff {tasks : List Task} {d : Int} :
    resolves tasks d = true ↔ ∃ t ∈ tasks, t.id = d := by
  unfold resolves
  rw [List.any_eq_true]
  constructor
  · rintro ⟨t, ht, hb⟩
    exact ⟨t, ht, by simpa using hb⟩
  · rintro ⟨t, ht, hid⟩
    exact ⟨t, ht, by simpa using hid⟩

theorem mapGet_eq_none_of_not_resolves {tasks : List Task} {d : Int}
    (h : resolves tasks d = false) : mapGet tasks d = none := by
  unfold mapGet
  rw [List.find?_eq_none]
  intro t ht
  rw [Bool.not_eq_true]
  cases hb : (t.id == d) with
  | false => rfl
  | true =>
    exfalso
    have : resolves tasks d = true :=
      resolves_iff.mpr ⟨t, List.mem_reverse.mp ht, by simpa using hb⟩
    rw [h] at this
    exact Bool.noConfusion this

theorem findTask_eq_none_of_not_resolves {tasks : List Task} {d : Int}
    (h : resolves tasks d = false) : findTask tasks d = none := by
  unfold findTask
  rw [List.find?_eq_none]
  intro t ht
  rw [Bool.not_eq_true]
  cases hb : (t.id == d) with
  | false => rfl
  | true =>
    exfalso
    have : resolves tasks d = true :=
      resolves_iff.mpr ⟨t, ht, by simpa using hb⟩
    rw [h] at this
    exact Bool.noConfusion this

theorem findTask_map {tasks : List Task} {f : Task → Task}
    (hid : ∀ t, (f t).id = t.id) (i : Int) :
    findTask (tasks.map f) i = (findTask tasks i).map f := by
  unfold findTask
  rw [List.find?_map]
  have hcomp : ((fun t : Task => t.id == i) ∘ f) = (fun t : Task => t.id == i) := by
    funext t
    simp [Function.comp, hid t]
  rw [hcomp]

theorem cleanTasks_pres_id (tasks : List Task) (t : Task) :
    ({ t with dependencies := t.dependencies.filter (resolves tasks) } : Task).id =
      t.id := rfl

theorem adjFind_clean (tasks : List Task) (a : Int) :
    adjFind (cleanTasks tasks) a = (adjFind tasks a).filter (resolves tasks) := by
  unfold adjFind cleanTasks
  rw [findTask_map (fun t => cleanTasks_pres_id tasks t)]
  cases hf : findTask tasks a with
  | none => simp
  | some t => simp

theorem adjMap_clean (tasks : List Task) (a : Int) :
    adjMap (cleanTasks tasks) a = (adjMap tasks a).filter (resolves tasks) := by
  unfold adjMap cleanTasks
  rw [mapGet_map (fun t => cleanTasks_pres_id tasks t)]
  cases hf : mapGet tasks a with
  | none => simp
  | some t => simp

theorem adjSkip_clean (tasks : List Task) (skipEdge : Int × Int) (a : Int) :
    adjSkip (cleanTasks tasks) skipEdge a =
      (adjSkip tasks skipEdge a).filter (resolves tasks) := by
  unfold adjSkip
  rw [adjMap_clean, List.filter_comm]

theorem adjFind_deadend {tasks : List Task} {d : Int}
    (h : resolves tasks d = false) : adjFind tasks d = [] := by
  unfold adjFind
  rw [findTask_eq_none_of_not_resolves h]
  rfl

theorem adjMap_deadend {tasks : List Task} {d : Int}
    (h : resolves tasks d = false) : adjMap tasks d = [] := by
  unfold adjMap
  rw [mapGet_eq_none_of_not_resolves h]
  rfl

theorem adjSkip_deadend {tasks : List Task} {skipEdge : Int × Int} {d : Int}
    (h : resolves tasks d = false) : adjSkip tasks skipEdge d = [] := by
  unfold adjSkip
  rw [adjMap_deadend h]
  rfl

theorem bool_eq_of_iff {b1 b2 : Bool} (h : b1 = true ↔ b2 = true) : b1 = b2 := by
  cases b1 with
  | true => exact (h.mp rfl).symm
  | false =>
    cases b2 with
    | false => rfl
    | true => exact absurd (h.mpr rfl) (by simp)

theorem areach_cases_last {adj : Int → List Int} {a x : Int}
    (h : AReach adj a x) : x = a ∨ ∃ y, x ∈ adj y := by
  induction h with
  | refl => exact Or.inl rfl
  | tail _ hstep _ => exact Or.inr ⟨_, hstep⟩

/-- hasCycle ignores dangling ids as long as the target id is itself not
a dangling dependency id. -/
theorem hasCycle_clean (tasks : List Task) (startId targetId : Int)
    (hT : resolves tasks targetId = true ∨ ∀ t ∈ tasks, targetId ∉ t.dependencies) :
    hasCycle tasks startId targetId =
      hasCycle (cleanTasks tasks) startId targetId := by
  apply bool_eq_of_iff
  rw [hasCycle_iff_reach, hasCycle_iff_reach]
  constructor
  · intro h
    rcases hT with hres | hnomem
    · have h2 := AReach_filter (g := adjFind tasks) (P := resolves tasks)
        (fun a ha => adjFind_deadend ha) hres h
      refine AReach_mono ?_ h2
      intro a b hb
      rw [adjFind_clean]
      exact hb
    · rcases areach_cases_last h with heq | ⟨y, hy⟩
      · rw [heq]
        exact Relation.ReflTransGen.refl
      · exfalso
        obtain ⟨t, ht, _, hmem⟩ := adjFind_sub_depStep hy
        exact hnomem t ht hmem
  · intro h
    refine AReach_mono ?_ h
    intro a b hb
    rw [adjFind_clean] at hb
    exact List.mem_of_mem_filter hb

theorem foldMax_filter_drop (v : Int → Int) (P : Int → Bool) (ps : Int)
    (hdrop : ∀ p, P p = false → v p = ps) :
    ∀ (l : List Int) (init : Int), ps ≤ init →
      l.foldl (fun m p => if m < v p then v p else m) init =
        (l.filter P).foldl (fun m p => if m < v p then v p else m) init := by
  intro l
  induction l with
  | nil => intro init _; rfl
  | cons d l ih =>
    intro init hinit
    rw [List.filter_cons]
    cases hP : P d with
    | true =>
      rw [if_pos rfl]
      show List.foldl (fun m p => if m < v p then v p else m)
          (if init < v d then v d else init) l =
        List.foldl (fun m p => if m < v p then v p else m)
          (if init < v d then v d else init) (l.filter P)
      refine ih _ ?_
      refine le_trans hinit ?_
      split <;> omega
    | false =>
      rw [if_neg (by simp)]
      show List.foldl (fun m p => if m < v p then v p else m)
          (if init < v d then v d else init) l =
        List.foldl (fun m p => if m < v p then v p else m) init (l.filter P)
      have hstep : (if init < v d then v d else init) = init := by
        rw [hdrop d hP]
        split <;> omega
      rw [hstep]
      exact ih init hinit

theorem clean_dueDate_eq (tasks : List Task) (p : Int) :
    (mapGet (cleanTasks tasks) p).bind Task.dueDate =
      (mapGet tasks p).bind Task.dueDate := by
  unfold cleanTasks
  rw [mapGet_map (fun t => cleanTasks_pres_id tasks t)]
  cases hm : mapGet tasks p with
  | none => rfl
  | some t => rfl

/-- The earliest-start propagator ignores dangling ids for every task
that keeps at least one resolvable dependency or had none at all. -/
theorem getES_clean (tasks : List Task) (ps taskId : Int)
    (hcond : ∀ task, mapGet tasks taskId = some task →
      task.dependencies = [] ∨ task.dependencies.filter (resolves tasks) ≠ []) :
    getEarliestStartDate tasks ps taskId =
      getEarliestStartDate (cleanTasks tasks) ps taskId := by
  cases hm : mapGet tasks taskId with
  | none =>
    have hmc : mapGet (cleanTasks tasks) taskId = none := by
      unfold cleanTasks
      rw [mapGet_map (fun t => cleanTasks_pres_id tasks t), hm]
      rfl
    unfold getEarliestStartDate
    rw [hm, hmc]
  | some task =>
    have hmc : mapGet (cleanTasks tasks) taskId =
        some { task with dependencies := task.dependencies.filter (resolves tasks) } := by
      unfold cleanTasks
      rw [mapGet_map (fun t => cleanTasks_pres_id tasks t), hm]
      rfl
    rw [getEarliestStartDate_some hm, getEarliestStartDate_some hmc]
    rcases hcond task hm with hnil | hfne
    · rw [hnil]
      rfl
    · have hne : task.dependencies ≠ [] := by
        intro h
        rw [h] at hfne
        simp at hfne
      rw [if_neg (by simpa [List.isEmpty_iff] using hne)]
      rw [if_neg (by simpa [List.isEmpty_iff] using hfne)]
      show task.dependencies.foldl (fun m p =>
          let pd := parseDate ((mapGet tasks p).bind Task.dueDate) ps
          if m < pd then pd else m) ps =
        (task.dependencies.filter (resolves tasks)).foldl (fun m p =>
          let pd := parseDate ((mapGet (cleanTasks tasks) p).bind Task.dueDate) ps
          if m < pd then pd else m) ps
      have hfun : (fun (m p : Int) =>
          let pd := parseDate ((mapGet (cleanTasks tasks) p).bind Task.dueDate) ps
          if m < pd then pd else m) =
          (fun (m p : Int) =>
            let pd := parseDate ((mapGet tasks p).bind Task.dueDate) ps
            if m < pd then pd else m) := by
        funext m p
        rw [clean_dueDate_eq]
      rw [hfun]
      refine foldMax_filter_drop _ (resolves tasks) ps ?_ task.dependencies ps (le_refl ps)
      intro p hP
      rw [mapGet_eq_none_of_not_resolves hP]
      rfl

theorem contains_filter_resolves {tasks : List Task} {p : Int}
    (hres : resolves tasks p = true) (l : List Int) :
    (l.filter (resolves tasks)).contains p = l.contains p := by
  apply bool_eq_of_iff
  simp only [List.elem_iff, List.mem_filter]
  constructor
  · rintro ⟨h, _⟩
    exact h
  · intro h
    exact ⟨h, hres⟩

theorem childrenOf_clean {tasks : List Task} {p : Int}
    (hres : resolves tasks p = true) :
    childrenOf (cleanTasks tasks) p = childrenOf tasks p := by
  unfold childrenOf cleanTasks
  rw [List.filter_map, List.map_map]
  have hpred : (fun t : Task =>
      ({ t with dependencies := t.dependencies.filter (resolves tasks) } : Task).dependencies.contains p) =
      (fun t : Task => t.dependencies.contains p) := by
    funext t
    exact contains_filter_resolves hres t.dependencies
  have hid : (Task.id ∘ fun t : Task =>
      { t with dependencies := t.dependencies.filter (resolves tasks) }) = Task.id := by
    funext t
    rfl
  rw [hid]
  have hcomp : ((fun t : Task => t.dependencies.contains p) ∘ fun t : Task =>
      { t with dependencies := t.dependencies.filter (resolves tasks) }) =
      (fun t : Task => t.dependencies.contains p) := by
    funext t
    exact contains_filter_resolves hres t.dependencies
  rw [hcomp]

theorem resolves_of_child {tasks : List Task} {c p : Int}
    (h : c ∈ childrenOf tasks p) : resolves tasks c = true := by
  obtain ⟨t, ht, hid, _⟩ := mem_childrenOf.mp h
  exact resolves_iff.mpr ⟨t, ht, hid⟩

theorem heightF_clean (tasks : List Task) :
    ∀ (fuel : Nat) (pid : Int), resolves tasks pid = true →
      heightF tasks fuel pid = heightF (cleanTasks tasks) fuel pid := by
  intro fuel
  induction fuel with
  | zero => intro pid _; rfl
  | succ fuel ih =>
    intro pid hres
    rw [heightF, heightF, childrenOf_clean hres]
    cases hch : (childrenOf tasks pid).isEmpty with
    | true => simp [hch]
    | false =>
      simp only [hch, Bool.false_eq_true, if_false]
      have hmap : (childrenOf tasks pid).map (heightF tasks fuel) =
          (childrenOf tasks pid).map (heightF (cleanTasks tasks) fuel) := by
        refine List.map_congr_left ?_
        intro c hc
        exact ih c (resolves_of_child hc)
      rw [hmap]

theorem idsFinset_clean (tasks : List Task) :
    idsFinset (cleanTasks tasks) = idsFinset tasks := by
  unfold idsFinset cleanTasks
  rw [List.map_map]
  have hid : (Task.id ∘ fun t : Task =>
      { t with dependencies := t.dependencies.filter (resolves tasks) }) = Task.id := by
    funext t
    rfl
  rw [hid]

/-- The layering ignores dangling ids: every task keeps its layer. -/
theorem layerOf_clean {tasks : List Task} {pid : Int}
    (hres : resolves tasks pid = true) :
    layerOf tasks pid = layerOf (cleanTasks tasks) pid := by
  unfold layerOf
  rw [idsFinset_clean]
  exact heightF_clean tasks _ pid hres

theorem resolves_reduction (tasks : List Task) :
    resolves (computeTransitiveReduction tasks) = resolves tasks := by
  funext d
  unfold resolves computeTransitiveReduction
  rw [List.any_map]
  have hcomp : ((fun t : Task => t.id == d) ∘ reduceTask tasks) =
      (fun t : Task => t.id == d) := by
    funext t
    rfl
  rw [hcomp]

theorem adjSkip_clean_sub {tasks : List Task} {skipEdge : Int × Int} {a b : Int}
    (h : b ∈ adjSkip (cleanTasks tasks) skipEdge a) : b ∈ adjSkip tasks skipEdge a := by
  rw [adjSkip_clean] at h
  exact List.mem_of_mem_filter h

/-- Cleaning commutes with the reducer: reducing the cleaned snapshot
equals cleaning the reduction of the original snapshot. -/
theorem computeTR_clean_comm (tasks : List Task) :
    computeTransitiveReduction (cleanTasks tasks) =
      cleanTasks (computeTransitiveReduction tasks) := by
  show (cleanTasks tasks).map (reduceTask (cleanTasks tasks)) =
    (computeTransitiveReduction tasks).map (fun t =>
      { t with dependencies :=
          t.dependencies.filter (resolves (computeTransitiveReduction tasks)) })
  rw [resolves_reduction]
  show (tasks.map (fun t =>
      { t with dependencies := t.dependencies.filter (resolves tasks) })).map
        (reduceTask (cleanTasks tasks)) =
    (tasks.map (reduceTask tasks)).map (fun t =>
      { t with dependencies := t.dependencies.filter (resolves tasks) })
  rw [List.map_map, List.map_map]
  refine List.map_congr_left ?_
  intro t _
  have hlist : (t.dependencies.filter (resolves tasks)).filter (fun depId =>
        !(((t.dependencies.filter (resolves tasks)).filter (fun d => d != depId)).any
          (fun otherDepId =>
            isReachable (cleanTasks tasks) otherDepId depId (t.id, depId)))) =
      List.filter (resolves tasks)
        (t.dependencies.filter (fun depId =>
          !((t.dependencies.filter (fun d => d != depId)).any
            (fun otherDepId =>
              isReachable tasks otherDepId depId (t.id, depId))))) := ?_
  · exact congrArg (fun l => ({ t with dependencies := l } : Task)) hlist
  rw [List.filter_filter, List.filter_filter]
  refine List.filter_congr ?_
  intro d _
  cases hres : resolves tasks d with
  | false => simp [hres]
  | true =>
    simp only [hres, Bool.and_true, Bool.true_and]
    refine congrArg (fun b : Bool => !b) ?_
    apply bool_eq_of_iff
    constructor
    · intro h
      obtain ⟨od, hodf, hodr⟩ := List.any_eq_true.mp h
      rcases List.mem_filter.mp hodf with ⟨hodf1, hodne⟩
      rcases List.mem_filter.mp hodf1 with ⟨hodmem, _⟩
      have hreach : AReach (adjSkip (cleanTasks tasks) (t.id, d)) od d :=
        (isReachable_iff_reach (cleanTasks tasks) (t.id, d) od d).mp hodr
      have hreach2 : AReach (adjSkip tasks (t.id, d)) od d :=
        AReach_mono (fun a b hb => adjSkip_clean_sub hb) hreach
      refine List.any_eq_true.mpr ⟨od, List.mem_filter.mpr ⟨hodmem, hodne⟩, ?_⟩
      exact (isReachable_iff_reach tasks (t.id, d) od d).mpr hreach2
    · intro h
      obtain ⟨od, hodf, hodr⟩ := List.any_eq_true.mp h
      rcases List.mem_filter.mp hodf with ⟨hodmem, hodne⟩
      have hodned : od ≠ d := by simpa using hodne
      have hreach : AReach (adjSkip tasks (t.id, d)) od d :=
        (isReachable_iff_reach tasks (t.id, d) od d).mp hodr
      cases hro : resolves tasks od with
      | false =>
        exfalso
        rcases hreach.cases_head with heq | ⟨c, hstep, _⟩
        · exact hodned heq
        · have : c ∈ adjSkip tasks (t.id, d) od := hstep
          rw [adjSkip_deadend hro] at this
          exact absurd this (List.not_mem_nil c)
      | true =>
        have hfilt := AReach_filter (g := adjSkip tasks (t.id, d))
          (P := resolves tasks) (fun a ha => adjSkip_deadend ha) hres hreach
        have hreachcln : AReach (adjSkip (cleanTasks tasks) (t.id, d)) od d := by
          refine AReach_mono ?_ hfilt
          intro a b hb
          rw [adjSkip_clean]
          exact hb
        refine List.any_eq_true.mpr ⟨od, ?_, ?_⟩
        · exact List.mem_filter.mpr ⟨List.mem_filter.mpr ⟨hodmem, hro⟩, hodne⟩
        · exact (isReachable_iff_reach (cleanTasks tasks) (t.id, d) od d).mpr hreachcln

/-- C7 fails as stated: task 2's only dependency 3 is dangling, so on
the cleaned snapshot its dependency list is empty and the earliest-start
propagator switches to the own-due-date branch, answering 50 instead of
the 10 it answers on the original snapshot. -/
theorem C7_dangling_counterexample :
    getEarliestStartDate [⟨2, "b", 1, some 50, none, [3], none, none⟩] 10 2 = 10 ∧
    getEarliestStartDate
      (cleanTasks [⟨2, "b", 1, some 50, none, [3], none, none⟩]) 10 2 = 50 ∧
    getEarliestStartDate [⟨2, "b", 1, some 50, none, [3], none, none⟩] 10 2 ≠
      getEarliestStartDate
        (cleanTasks [⟨2, "b", 1, some 50, none, [3], none, none⟩]) 10 2 :=
  ⟨by decide, by decide, by decide⟩

/-- C7 amended: dangling ids are silently skipped and never raise an
error (every function here is total), and each computation agrees with
the cleaned snapshot in the following senses: hasCycle whenever the
target id is not itself a dangling dependency id; the earliest-start
propagator for every task that has no dependencies or keeps at least one
resolvable one; the layering on every task id; and the reducer up to
cleaning its output, which can still mention dangling ids. -/
theorem C7_dangling_ignored_amended (tasks : List Task) :
    (∀ startId targetId,
      (resolves tasks targetId = true ∨ ∀ t ∈ tasks, targetId ∉ t.dependencies) →
      hasCycle tasks startId targetId =
        hasCycle (cleanTasks tasks) startId targetId) ∧
    (∀ projectStartDate taskId,
      (∀ task, mapGet tasks taskId = some task →
        task.dependencies = [] ∨ task.dependencies.filter (resolves tasks) ≠ []) →
      getEarliestStartDate tasks projectStartDate taskId =
        getEarliestStartDate (cleanTasks tasks) projectStartDate taskId) ∧
    (∀ pid, resolves tasks pid = true →
      layerOf tasks pid = layerOf (cleanTasks tasks) pid) ∧
    computeTransitiveReduction (cleanTasks tasks) =
      cleanTasks (computeTransitiveReduction tasks) :=
  ⟨fun startId targetId hT => hasCycle_clean tasks startId targetId hT,
   fun projectStartDate taskId hcond => getES_clean tasks projectStartDate taskId hcond,
   fun _pid hres => layerOf_clean hres,
   computeTR_clean_comm tasks⟩

theorem C7_dangling_ignored_amended_witness :
    (resolves [⟨1, "a", 1, none, none, [3], none, none⟩,
               ⟨5, "b", 1, none, none, [1], none, none⟩] 5 = true) ∧
    hasCycle [⟨1, "a", 1, none, none, [3], none, none⟩,
              ⟨5, "b", 1, none, none, [1], none, none⟩] 1 5 =
      hasCycle (cleanTasks [⟨1, "a", 1, none, none, [3], none, none⟩,
                ⟨5, "b", 1, none, none, [1], none, none⟩]) 1 5 ∧
    computeTransitiveReduction
        (cleanTasks [⟨1, "a", 1, none, none, [3], none, none⟩,
          ⟨5, "b", 1, none, none, [1], none, none⟩]) =
      cleanTasks (computeTransitiveReduction
        [⟨1, "a", 1, none, none, [3], none, none⟩,
         ⟨5, "b", 1, none, none, [1], none, none⟩]) :=
  ⟨by decide,
   (C7_dangling_ignored_amended
     [⟨1, "a", 1, none, none, [3], none, none⟩,
      ⟨5, "b", 1, none, none, [1], none, none⟩]).1 1 5 (Or.inl (by decide)),
   (C7_dangling_ignored_amended
     [⟨1, "a", 1, none, none, [3], none, none⟩,
      ⟨5, "b", 1, none, none, [1], none, none⟩]).2.2.2⟩

/-! ### The critical-path selector against its contracted selection rule -/

/-- C4 fails as stated: an acyclic one-task snapshot whose single task
has the epoch date 0 as earliestStartDate has one non-empty layer, yet
computeCriticalPath selects nothing at all, because the scan only
accepts dates strictly after the epoch initialization of the running
maximum. -/
theorem C4_critical_path_counterexample :
    acyclicBool [⟨1, "a", 1, none, none, [], some 0, none⟩] = true ∧
    levelsList [⟨1, "a", 1, none, none, [], some 0, none⟩] = [0] ∧
    computeCriticalPath [⟨1, "a", 1, none, none, [], some 0, none⟩] = ∅ ∧
    (computeCriticalPath [⟨1, "a", 1, none, none, [], some 0, none⟩]).card = 0 :=
  ⟨by decide, by decide, by decide, by decide⟩

theorem es_some_of_pos {x : Task} (h : 0 < x.earliestStartDate.getD 0) :
    ∃ e, x.earliestStartDate = some e ∧ 0 < e := by
  cases he : x.earliestStartDate with
  | none => rw [he] at h; simp at h
  | some e => exact ⟨e, rfl, by rw [he] at h; simpa using h⟩

theorem cp_pick_rel :
    ∀ (ts : List Task) (b : Task), (∀ x ∈ ts, 0 < x.earliestStartDate.getD 0) →
      (∃ eb, b.earliestStartDate = some eb) →
      ts.foldl (fun acc task =>
          match task.earliestStartDate with
          | none => acc
          | some es => if acc.1 < es then (es, some task.id) else acc)
        (b.earliestStartDate.getD 0, some b.id) =
      ((ts.foldl (fun best task =>
          if best.earliestStartDate.getD 0 < task.earliestStartDate.getD 0 then task
          else best) b).earliestStartDate.getD 0,
        some (ts.foldl (fun best task =>
          if best.earliestStartDate.getD 0 < task.earliestStartDate.getD 0 then task
          else best) b).id) := by
  intro ts
  induction ts with
  | nil => intro b _ _; rfl
  | cons task ts ih =>
    intro b h hb
    obtain ⟨e, he, _⟩ := es_some_of_pos (h task (List.mem_cons_self task ts))
    have h2 : ∀ x ∈ ts, 0 < x.earliestStartDate.getD 0 :=
      fun x hx => h x (List.mem_cons_of_mem task hx)
    have hb2 : ∃ e2, (if b.earliestStartDate.getD 0 < task.earliestStartDate.getD 0
        then task else b).earliestStartDate = some e2 := by
      by_cases hlt : b.earliestStartDate.getD 0 < task.earliestStartDate.getD 0
      · rw [if_pos hlt]
        exact ⟨e, he⟩
      · rw [if_neg hlt]
        exact hb
    have key := ih _ h2 hb2
    rw [List.foldl_cons, List.foldl_cons]
    refine Eq.trans (congrArg (fun p =>
      List.foldl (fun (acc : Int × Option Int) (tk : Task) =>
        match tk.earliestStartDate with
        | none => acc
        | some es => if acc.1 < es then (es, some tk.id) else acc) p ts) ?_) key
    show ((fun (acc : Int × Option Int) (tk : Task) =>
        match tk.earliestStartDate with
        | none => acc
        | some es => if acc.1 < es then (es, some tk.id) else acc)
        (b.earliestStartDate.getD 0, some b.id) task) =
      ((if b.earliestStartDate.getD 0 < task.earliestStartDate.getD 0 then task
        else b).earliestStartDate.getD 0,
       some (if b.earliestStartDate.getD 0 < task.earliestStartDate.getD 0 then task
        else b).id)
    by_cases hlt2 : b.earliestStartDate.getD 0 < e
    · simp [he, hlt2]
    · simp [he, hlt2]

theorem pickMax_eq_spec (pool : List Task)
    (h : ∀ x ∈ pool, 0 < x.earliestStartDate.getD 0) :
    pickMax pool = (specPick pool).map Task.id := by
  cases pool with
  | nil => rfl
  | cons t ts =>
    obtain ⟨e, he, hepos⟩ := es_some_of_pos (h t (List.mem_cons_self t ts))
    have h2 : ∀ x ∈ ts, 0 < x.earliestStartDate.getD 0 :=
      fun x hx => h x (List.mem_cons_of_mem t hx)
    have key := cp_pick_rel ts t h2 ⟨e, he⟩
    unfold pickMax
    rw [List.foldl_cons]
    refine Eq.trans (congrArg (fun p =>
      (List.foldl (fun (acc : Int × Option Int) (tk : Task) =>
        match tk.earliestStartDate with
        | none => acc
        | some es => if acc.1 < es then (es, some tk.id) else acc) p ts).2) ?_)
      (Eq.trans (congrArg Prod.snd key) ?_)
    · show ((fun (acc : Int × Option Int) (tk : Task) =>
          match tk.earliestStartDate with
          | none => acc
          | some es => if acc.1 < es then (es, some tk.id) else acc)
          ((0 : Int), (none : Option Int)) t) =
        (t.earliestStartDate.getD 0, some t.id)
      simp [he, hepos]
    · rfl

theorem specFold_mem :
    ∀ (ts : List Task) (b : Task),
      ts.foldl (fun best task =>
        if best.earliestStartDate.getD 0 < task.earliestStartDate.getD 0 then task
        else best) b = b ∨
      ts.foldl (fun best task =>
        if best.earliestStartDate.getD 0 < task.earliestStartDate.getD 0 then task
        else best) b ∈ ts := by
  intro ts
  induction ts with
  | nil => intro b; exact Or.inl rfl
  | cons task ts ih =>
    intro b
    rw [List.foldl_cons]
    rcases ih (if b.earliestStartDate.getD 0 < task.earliestStartDate.getD 0 then task
        else b) with hmem | hmem
    · rw [hmem]
      by_cases hlt : b.earliestStartDate.getD 0 < task.earliestStartDate.getD 0
      · rw [if_pos hlt]
        exact Or.inr (List.mem_cons_self task ts)
      · rw [if_neg hlt]
        exact Or.inl rfl
    · exact Or.inr (List.mem_cons_of_mem task hmem)

theorem specPick_mem {pool : List Task} {sel : Task}
    (h : specPick pool = some sel) : sel ∈ pool := by
  cases pool with
  | nil => exact Option.noConfusion h
  | cons t ts =>
    unfold specPick at h
    have hsel := Option.some_injective _ h
    rcases specFold_mem ts t with hmem | hmem
    · rw [hmem] at hsel
      rw [← hsel]
      exact List.mem_cons_self t ts
    · rw [← hsel]
      exact List.mem_cons_of_mem t hmem

theorem specPick_isSome {pool : List Task} (h : pool ≠ []) :
    ∃ sel, specPick pool = some sel := by
  cases pool with
  | nil => exact absurd rfl h
  | cons t ts => exact ⟨_, rfl⟩

theorem bucket_sub_tasks {tasks : List Task} {L : Nat} :
    ∀ x ∈ layerBucket tasks L, x ∈ tasks :=
  fun _ hx => List.mem_of_mem_filter hx

theorem bucket_layer {tasks : List Task} {L : Nat} {x : Task}
    (hx : x ∈ layerBucket tasks L) : layerOf tasks x.id = L := by
  rcases List.mem_filter.mp hx with ⟨_, hL⟩
  simpa using hL

theorem candidates_eq {tasks : List Task} (hnd : (tasks.map Task.id).Nodup)
    {p : Task} (hp : p ∈ tasks) (bucket : List Task) :
    bucket.filter (fun task =>
      [p.id].any (fun critId =>
        match findTask tasks critId with
        | some t => t.dependencies.contains task.id
        | none => false)) =
    bucket.filter (fun task => p.dependencies.contains task.id) := by
  refine List.filter_congr ?_
  intro task _
  simp only [List.any_cons, List.any_nil, Bool.or_false]
  rw [findTask_of_nodup hnd hp]

/-- One layer of the walk: with distinct ids and positive earliest
starts, the code's scan and the claimed rule select the same task. -/
theorem cp_step_eq (tasks : List Task) (hnd : (tasks.map Task.id).Nodup)
    (hES : ∀ t ∈ tasks, 0 < t.earliestStartDate.getD 0)
    (S : Finset Int) (prevC : List Int) (prevS : Option Task)
    (hprev : match prevS with
      | some p => prevC = [p.id] ∧ p ∈ tasks
      | none => prevC = [])
    (L : Nat) (hbucket : layerBucket tasks L ≠ []) :
    ∃ sel : Task, sel ∈ layerBucket tasks L ∧
      cpStep tasks (S, prevC) L = (insert sel.id S, [sel.id]) ∧
      specCPStep tasks (S, prevS) L = (insert sel.id S, some sel) := by
  have hposB : ∀ x ∈ layerBucket tasks L, 0 < x.earliestStartDate.getD 0 :=
    fun x hx => hES x (bucket_sub_tasks x hx)
  by_cases hL : (L == 0) = true
  · obtain ⟨sel, hsel⟩ := specPick_isSome hbucket
    refine ⟨sel, specPick_mem hsel, ?_, ?_⟩
    · simp only [cpStep]
      rw [if_pos hL, pickMax_eq_spec _ hposB, hsel]
      rfl
    · simp only [specCPStep]
      rw [if_pos hL, hsel]
  · cases prevS with
    | none =>
      have hpc : prevC = [] := hprev
      subst hpc
      obtain ⟨sel, hsel⟩ := specPick_isSome hbucket
      refine ⟨sel, specPick_mem hsel, ?_, ?_⟩
      · simp only [cpStep]
        rw [if_neg hL]
        have hcand : (layerBucket tasks L).filter (fun task =>
            ([] : List Int).any (fun critId =>
              match findTask tasks critId with
              | some t => t.dependencies.contains task.id
              | none => false)) = [] := by
          simp
        rw [hcand]
        have hemp : (([] : List Task)).isEmpty = true := rfl
        rw [if_pos hemp, pickMax_eq_spec _ hposB, hsel]
        rfl
      · simp only [specCPStep]
        rw [if_neg hL]
        have hemp : (([] : List Task)).isEmpty = true := rfl
        rw [if_pos hemp, hsel]
    | some p =>
      obtain ⟨hpc, hp⟩ := hprev
      subst hpc
      have hcand := candidates_eq hnd hp (layerBucket tasks L)
      by_cases hce : ((layerBucket tasks L).filter
          (fun task => p.dependencies.contains task.id)).isEmpty = true
      · obtain ⟨sel, hsel⟩ := specPick_isSome hbucket
        refine ⟨sel, specPick_mem hsel, ?_, ?_⟩
        · simp only [cpStep]
          rw [if_neg hL, hcand, if_pos hce, pickMax_eq_spec _ hposB, hsel]
          rfl
        · simp only [specCPStep]
          rw [if_neg hL, if_pos hce, hsel]
      · have hcne : (layerBucket tasks L).filter
            (fun task => p.dependencies.contains task.id) ≠ [] := by
          intro h0
          rw [h0] at hce
          exact hce rfl
        obtain ⟨sel, hsel⟩ := specPick_isSome hcne
        have hposC : ∀ x ∈ (layerBucket tasks L).filter
            (fun task => p.dependencies.contains task.id),
            0 < x.earliestStartDate.getD 0 :=
          fun x hx => hposB x (List.mem_of_mem_filter hx)
        refine ⟨sel, List.mem_of_mem_filter (specPick_mem hsel), ?_, ?_⟩
        · simp only [cpStep]
          rw [if_neg hL, hcand, if_neg hce, pickMax_eq_spec _ hposC, hsel]
          rfl
        · simp only [specCPStep]
          rw [if_neg hL, if_neg hce, hsel]

theorem levelsList_sorted (tasks : List Task) :
    (levelsList tasks).Pairwise (· < ·) := by
  unfold levelsList
  exact (List.pairwise_lt_range _).filter _

theorem bucket_ne_nil_of_mem_levels {tasks : List Task} {L : Nat}
    (h : L ∈ levelsList tasks) : layerBucket tasks L ≠ [] := by
  unfold levelsList at h
  rcases List.mem_filter.mp h with ⟨_, hany⟩
  obtain ⟨t, ht, hL⟩ := List.any_eq_true.mp hany
  intro hnil
  have hmem : t ∈ layerBucket tasks L := List.mem_filter.mpr ⟨ht, hL⟩
  rw [hnil] at hmem
  exact (List.not_mem_nil t) hmem

/-- The walk invariant: the code fold and the claimed fold stay in
lockstep, selecting one new id per remaining layer. -/
theorem cp_fold_rel (tasks : List Task) (hnd : (tasks.map Task.id).Nodup)
    (hES : ∀ t ∈ tasks, 0 < t.earliestStartDate.getD 0) :
    ∀ (levels : List Nat) (S : Finset Int) (prevC : List Int) (prevS : Option Task),
      (match prevS with
       | some p => prevC = [p.id] ∧ p ∈ tasks
       | none => prevC = []) →
      (∀ i ∈ S, layerOf tasks i ∉ levels) →
      (∀ L ∈ levels, layerBucket tasks L ≠ []) →
      levels.Pairwise (· < ·) →
      (levels.foldl (cpStep tasks) (S, prevC)).1 =
        (levels.foldl (specCPStep tasks) (S, prevS)).1 ∧
      (levels.foldl (cpStep tasks) (S, prevC)).1.card = S.card + levels.length := by
  intro levels
  induction levels with
  | nil => intro S prevC prevS _ _ _ _; exact ⟨rfl, by simp⟩
  | cons L rest ih =>
    intro S prevC prevS hprev hS hbuckets hpair
    obtain ⟨sel, hselmem, hcode, hspec⟩ :=
      cp_step_eq tasks hnd hES S prevC prevS hprev L
        (hbuckets L (List.mem_cons_self L rest))
    rw [List.foldl_cons, List.foldl_cons, hcode, hspec]
    have hsellayer : layerOf tasks sel.id = L := bucket_layer hselmem
    have hselnotS : sel.id ∉ S := by
      intro hmem
      exact hS sel.id hmem (hsellayer ▸ List.mem_cons_self L rest)
    have hS2 : ∀ i ∈ insert sel.id S, layerOf tasks i ∉ rest := by
      intro i hi
      rcases Finset.mem_insert.mp hi with hi1 | hi1
      · subst hi1
        rw [hsellayer]
        intro hLrest
        have := List.pairwise_cons.mp hpair
        exact lt_irrefl L (this.1 L hLrest)
      · intro hrest
        exact hS i hi1 (List.mem_cons_of_mem L hrest)
    have hprev2 : (match (some sel : Option Task) with
        | some p => ([sel.id] : List Int) = [p.id] ∧ p ∈ tasks
        | none => ([sel.id] : List Int) = []) :=
      ⟨rfl, bucket_sub_tasks sel hselmem⟩
    obtain ⟨heq, hcard⟩ := ih (insert sel.id S) [sel.id] (some sel) hprev2 hS2
      (fun L2 hL2 => hbuckets L2 (List.mem_cons_of_mem L hL2))
      (List.pairwise_cons.mp hpair).2
    refine ⟨heq, ?_⟩
    rw [hcard, Finset.card_insert_of_not_mem hselnotS]
    simp [Nat.add_assoc, Nat.add_comm 1]

/-- C4 amended: on an acyclic snapshot with distinct ids in which every
task carries an earliestStartDate strictly after the epoch,
computeCriticalPath selects exactly one task per non-empty layer and
follows the claimed rule (whole-layer first maximum at layer 0, then
direct dependencies of the previous selection with a whole-layer
fallback): it equals the selection rule's set and has one element per
layer.  The amendment restricts the claim to positive dates: a task
whose earliestStartDate is missing or not after the epoch is skipped by
the scan, which otherwise can select nothing at a layer. -/
theorem C4_critical_path_amended (tasks : List Task) (_hA : Acyclic tasks)
    (hnd : (tasks.map Task.id).Nodup)
    (hES : ∀ t ∈ tasks, 0 < t.earliestStartDate.getD 0) :
    computeCriticalPath tasks = criticalPathSpec tasks ∧
      (computeCriticalPath tasks).card = (levelsList tasks).length := by
  have h := cp_fold_rel tasks hnd hES (levelsList tasks) ∅ [] none rfl
    (by intro i hi; exact absurd hi (Finset.not_mem_empty i))
    (fun L hL => bucket_ne_nil_of_mem_levels hL)
    (levelsList_sorted tasks)
  refine ⟨h.1, ?_⟩
  have := h.2
  simpa using this

theorem C4_critical_path_amended_witness :
    acyclicBool [⟨1, "a", 1, none, none, [], some 5, none⟩,
                 ⟨2, "b", 1, none, none, [1], some 9, none⟩] = true ∧
    (([⟨1, "a", 1, none, none, [], some 5, none⟩,
       ⟨2, "b", 1, none, none, [1], some 9, none⟩] : List Task).map Task.id).Nodup ∧
    (∀ t ∈ ([⟨1, "a", 1, none, none, [], some 5, none⟩,
       ⟨2, "b", 1, none, none, [1], some 9, none⟩] : List Task),
      0 < t.earliestStartDate.getD 0) ∧
    computeCriticalPath [⟨1, "a", 1, none, none, [], some 5, none⟩,
        ⟨2, "b", 1, none, none, [1], some 9, none⟩] =
      criticalPathSpec [⟨1, "a", 1, none, none, [], some 5, none⟩,
        ⟨2, "b", 1, none, none, [1], some 9, none⟩] :=
  ⟨by decide, by decide, by decide,
   (C4_critical_path_amended
     [⟨1, "a", 1, none, none, [], some 5, none⟩,
      ⟨2, "b", 1, none, none, [1], some 9, none⟩]
     (acyclic_of_bool (by decide)) (by decide) (by decide)).1⟩

end TaskGraph
